import Mathlib

/-!
Verification of the descriptor-search core (`descriptors.py`) of the `indy`
wallet-recovery repository.

The Python strings are modelled as `List Char`, and Python's string
primitives used by the source (`str.replace` with a one-character pattern,
`str.split('/')`, `str.endswith("'")`, slicing `[:-1]` and `[1:]`, `str(int)`
and `int(str)`) are given faithful executable models below.  Python's `int()`
is modelled on the inputs that can reach it here: an optional minus sign
followed by decimal digits (the model does not accept Python's whitespace,
underscore or plus-sign forms, none of which can arise from the templates).

External collaborators are modelled as parameters, following the spec's
interface section: the master key is a total function from an absolute
derivation path to public-key bytes, and the script builder is a total
function from a script type and public-key bytes to script bytes.
-/

namespace Indy

/-- The apostrophe character `'` marking a hardened path segment. -/
def apos : Char := Char.ofNat 39

/-- The path separator `/`. -/
def slash : Char := Char.ofNat 47

/-- Model of Python `str.replace(old, new)` for a one-character `old`:
every occurrence of `c` is replaced by `rep`. -/
def replaceChar (c : Char) (rep : List Char) : List Char → List Char
  | [] => []
  | x :: xs => if x = c then rep ++ replaceChar c rep xs else x :: replaceChar c rep xs

/-- Model of Python `str.split(sep)` for a one-character separator:
splitting the empty string yields `[""]`, and every separator occurrence
starts a new chunk. -/
def splitChar (sep : Char) : List Char → List (List Char)
  | [] => [[]]
  | c :: cs =>
    match splitChar sep cs with
    | [] => [[]]
    | h :: t => if c = sep then [] :: h :: t else (c :: h) :: t

/-- Decimal digit test, `'0' ≤ c ≤ '9'`. -/
def isDigitCh (c : Char) : Bool := decide (48 ≤ c.toNat) && decide (c.toNat ≤ 57)

/-- The value of a decimal digit character, `none` on non-digits. -/
def digitVal (c : Char) : Option ℕ :=
  if 48 ≤ c.toNat ∧ c.toNat ≤ 57 then some (c.toNat - 48) else none

/-- Left-to-right accumulation of decimal digits; fails on any non-digit. -/
def parseNatAux (acc : ℕ) : List Char → Option ℕ
  | [] => some acc
  | c :: cs =>
    match digitVal c with
    | none => none
    | some d => parseNatAux (10 * acc + d) cs

/-- Model of Python `int(s)` on the string shapes reachable in this program:
an optional `-` followed by one or more decimal digits. -/
def pyInt (l : List Char) : Option Int :=
  match l with
  | [] => none
  | c :: cs =>
    if c = Char.ofNat 45 then
      if cs = [] then none else (parseNatAux 0 cs).map (fun n => -(n : Int))
    else (parseNatAux 0 (c :: cs)).map (fun n => (n : Int))

/-- The decimal digit character of `n < 10`. -/
def digitChar (n : ℕ) : Char := Char.ofNat (48 + n)

/-- Fuelled decimal rendering of a natural number (most significant digit
first); the fuel is irrelevant as soon as it exceeds the number. -/
def natToCharsAux : ℕ → ℕ → List Char
  | 0, _ => []
  | fuel + 1, n =>
    if n < 10 then [digitChar n]
    else natToCharsAux fuel (n / 10) ++ [digitChar (n % 10)]

/-- Model of Python `str(n)` for a natural number. -/
def natToChars (n : ℕ) : List Char := natToCharsAux (n + 1) n

/-- Model of Python `str(i)` for an integer. -/
def intToChars (i : Int) : List Char :=
  if i < 0 then Char.ofNat 45 :: natToChars i.natAbs else natToChars i.toNat

/-- Model of Python `str(x)` for an optional integer: `None` renders as the
four-character string `None`. -/
def substOpt : Option Int → List Char
  | some n => intToChars n
  | none => (r"None").data

/-- `mapM` over `Option`, written out so that its equations are directly
available to induction. -/
def optMapM (f : α → Option β) : List α → Option (List β)
  | [] => some []
  | x :: xs =>
    match f x with
    | none => none
    | some y => (optMapM f xs).map (fun ys => y :: ys)

/-- Modelled from the spec: the hardened-index offset `HARDENED_INDEX = 2^31`
imported by the source from the external `bip32` library. -/
def HARDENED_INDEX : Int := 2147483648

/-- The script types consumed from the external `scripts` module.
Modelled from the spec: `ScriptType` is an enum of exactly
legacy, compat (P2SH-wrapped segwit) and segwit. -/
inductive ScriptType : Type
  | LEGACY : ScriptType
  | COMPAT : ScriptType
  | SEGWIT : ScriptType
deriving DecidableEq

/-- `Path`: a derivation path from a master key that may have a variable
account number (`a`) and a variable index number (`i`).  The Python object
holds the pattern string; here the string is its character list. -/
structure Path : Type where
  path : List Char
deriving DecidableEq

/-- Literal helper: registry pattern strings are written with `h` standing
for the hardened apostrophe, which this helper restores, so that
`tpl (r"m/44h/0h/ah/0/i")` is the source string `m/44'/0'/a'/0/i`. -/
def tpl (s : String) : Path :=
  ⟨s.data.map (fun c => if c = 'h' then apos else c)⟩

/-- `Path.has_variable_account`: whether this path has the account level as a
free variable (Python `self.path.find('a') >= 0`). -/
def Path.has_variable_account (p : Path) : Bool := p.path.contains 'a'

/-- `Path.has_variable_index`: whether this path has the index level as a
free variable (Python `self.path.find('i') >= 0`). -/
def Path.has_variable_index (p : Path) : Bool := p.path.contains 'i'

/-- The segments of the pattern after substituting both placeholders and
splitting on `/`, with the leading `m` segment dropped
(Python `path.replace('a', str(account)).replace('i', str(index)).split('/')[1:]`). -/
def Path.parts_of (p : Path) (index account : Option Int) : List (List Char) :=
  (splitChar slash (replaceChar 'i' (substOpt index) (replaceChar 'a' (substOpt account) p.path))).drop 1

/-- One loop iteration of `Path.to_list`: a segment ending in `'` contributes
`HARDENED_INDEX + int(segment[:-1])`, any other segment contributes
`int(segment)`; `none` models the `ValueError` of `int` (the source's
`InvalidPathError` site). -/
def partIndex (part : List Char) : Option Int :=
  if part.getLast? = some apos then
    (pyInt part.dropLast).map (fun n => HARDENED_INDEX + n)
  else pyInt part

/-- `Path.to_list`: transform this path into the list of derivation indexes,
`none` when some segment does not parse as an integer. -/
def Path.to_list (p : Path) (index account : Option Int) : Option (List Int) :=
  optMapM partIndex (p.parts_of index account)

/-- `Path.with_account`: a new path with a fixed account
(Python `Path(self.path.replace('a', str(account)))`). -/
def Path.with_account (p : Path) (account : Int) : Path :=
  ⟨replaceChar 'a' (intToChars account) p.path⟩

/-- `Path.with_index`: a new path with a fixed index
(Python `Path(self.path.replace('i', str(index)))`). -/
def Path.with_index (p : Path) (index : Int) : Path :=
  ⟨replaceChar 'i' (intToChars index) p.path⟩

/-- The module-level `descriptors` registry: the static catalog of
(path template, script types) pairs, in source order. -/
def descriptors : List (Path × List ScriptType) :=
  [ (tpl (r"m/44h/0h/ah/0/i"), [ScriptType.LEGACY]),
    (tpl (r"m/44h/0h/ah/1/i"), [ScriptType.LEGACY]),
    (tpl (r"m/49h/0h/ah/0/i"), [ScriptType.COMPAT]),
    (tpl (r"m/49h/0h/ah/1/i"), [ScriptType.COMPAT]),
    (tpl (r"m/84h/0h/ah/0/i"), [ScriptType.SEGWIT]),
    (tpl (r"m/84h/0h/ah/1/i"), [ScriptType.SEGWIT]),
    (tpl (r"m/0h/0h/ih"), [ScriptType.LEGACY, ScriptType.COMPAT, ScriptType.SEGWIT]),
    (tpl (r"m/0h/0/i"), [ScriptType.LEGACY, ScriptType.COMPAT, ScriptType.SEGWIT]),
    (tpl (r"m/0h/1/i"), [ScriptType.LEGACY, ScriptType.COMPAT, ScriptType.SEGWIT]),
    (tpl (r"m/44h/0h/2147483647h/0/i"), [ScriptType.LEGACY]),
    (tpl (r"m/44h/0h/2147483647h/1/i"), [ScriptType.LEGACY]),
    (tpl (r"m/49h/0h/2147483647h/0/i"), [ScriptType.COMPAT]),
    (tpl (r"m/49h/0h/2147483647h/1/i"), [ScriptType.COMPAT]),
    (tpl (r"m/84h/0h/2147483647h/0/i"), [ScriptType.SEGWIT]),
    (tpl (r"m/84h/0h/2147483647h/1/i"), [ScriptType.SEGWIT]),
    (tpl (r"m/84h/0h/2147483646h/0/i"), [ScriptType.SEGWIT]),
    (tpl (r"m/84h/0h/2147483646h/1/i"), [ScriptType.SEGWIT]),
    (tpl (r"m/84h/0h/2147483645h/0/i"), [ScriptType.SEGWIT]),
    (tpl (r"m/84h/0h/2147483645h/1/i"), [ScriptType.SEGWIT]),
    (tpl (r"m/84h/0h/2147483644h/0/i"), [ScriptType.SEGWIT]),
    (tpl (r"m/84h/0h/2147483644h/1/i"), [ScriptType.SEGWIT]) ]

/-- The result tuple `(script, path, script_type)` of a successful
`next_script` call; script and public-key bytes are byte lists. -/
abbrev ScriptResult : Type := List ℕ × Path × ScriptType

/-- The `InvalidPathError` raised when template resolution produces a
non-numeric segment. -/
inductive InvalidPathError : Type
  | mk : InvalidPathError
deriving DecidableEq

/-- `DescriptorScriptIterator`: traverses all the scripts generated by one
descriptor (a path and script type pair).  Fields are the Python instance
attributes. -/
structure DescriptorScriptIterator : Type where
  path : Path
  script_type : ScriptType
  index : ℕ
  account : ℕ
  max_index : ℕ
  max_account : ℕ
  total_scripts : ℕ
deriving DecidableEq

/-- `DescriptorScriptIterator.__init__`: cursors start at `(0, 0)`, each
bound is clamped to 0 when its placeholder is absent, and
`total_scripts = (max_index + 1) * (max_account + 1)`. -/
def DescriptorScriptIterator.init (path : Path) (script_type : ScriptType)
    (max_index max_account : ℕ) : DescriptorScriptIterator :=
  let mi := if path.has_variable_index then max_index else 0
  let ma := if path.has_variable_account then max_account else 0
  ⟨path, script_type, 0, 0, mi, ma, (mi + 1) * (ma + 1)⟩

/-- The cursor-advance rule of `next_script` (source lines 137-145): at a
diagonal border restart on the next anti-diagonal, otherwise move down-left
along the current diagonal. -/
def advanceCell (mi ma i a : ℕ) : ℕ × ℕ :=
  if i = 0 ∨ a = ma then
    let diagonal_total := i + a + 1
    let i2 := min diagonal_total mi
    (i2, diagonal_total - i2)
  else
    (i - 1, a + 1)

/-- `DescriptorScriptIterator.next_script`: `none` once the cursor has left
the grid (terminal), otherwise derive the script at the current cell, advance
the cursor diagonally and return `(script, account-bound path, script_type)`.
`master_key` models `BIP32.get_pubkey_from_path` and `build` models
`ScriptType.build_output_script`; an `InvalidPathError` from `to_list`
propagates before the cursor is advanced. -/
def DescriptorScriptIterator.next_script (master_key : List Int → List ℕ)
    (build : ScriptType → List ℕ → List ℕ) (d : DescriptorScriptIterator) :
    Except InvalidPathError (Option ScriptResult) × DescriptorScriptIterator :=
  if d.max_index < d.index ∨ d.max_account < d.account then
    (.ok none, d)
  else
    let path := d.path.with_account (d.account : Int)
    match path.to_list (some (d.index : Int)) none with
    | none => (.error InvalidPathError.mk, d)
    | some idxs =>
      let pubkey := master_key idxs
      let script := build d.script_type pubkey
      let c := advanceCell d.max_index d.max_account d.index d.account
      (.ok (some (script, path, d.script_type)),
        ⟨d.path, d.script_type, c.1, c.2, d.max_index, d.max_account, d.total_scripts⟩)

/-- List indexing with a default, Python `l[n]` under the in-bounds invariant. -/
def getIdx : List α → ℕ → α → α
  | [], _, dflt => dflt
  | x :: _, 0, _ => x
  | _ :: xs, n + 1, dflt => getIdx xs n dflt

/-- In-place update `l[n] = x`. -/
def setAt : List α → ℕ → α → List α
  | [], _, _ => []
  | _ :: xs, 0, x => x :: xs
  | y :: xs, n + 1, x => y :: setAt xs n x

/-- Python `del l[n]`. -/
def delAt : List α → ℕ → List α
  | [], _ => []
  | _ :: xs, 0 => xs
  | y :: xs, n + 1 => y :: delAt xs n

/-- A throwaway `DescriptorScriptIterator` used as the `getIdx` default; the
cursor invariant proves it is never read. -/
def dfltDSI : DescriptorScriptIterator := ⟨⟨[]⟩, ScriptType.LEGACY, 0, 0, 0, 0, 1⟩

/-- `ScriptIterator`: traverses all the scripts of all the descriptors.
Fields are the Python instance attributes; the cursor is an `Int` because the
source transiently decrements it below zero during removal. -/
structure ScriptIterator : Type where
  master_key : List Int → List ℕ
  index : Int
  descriptors : List DescriptorScriptIterator
  total_scripts : ℕ

/-- The nested registry loops of `ScriptIterator.__init__`, in order. -/
def expandRegistry : List (Path × List ScriptType) → ℕ → ℕ → List DescriptorScriptIterator
  | [], _, _ => []
  | (p, tys) :: rest, mi, ma =>
    tys.map (fun ty => DescriptorScriptIterator.init p ty mi ma) ++ expandRegistry rest mi ma

/-- `ScriptIterator.__init__`: one `DescriptorScriptIterator` per
(path, script type) pair of the registry, cursor 0, and the precomputed sum
of all `total_scripts`. -/
def ScriptIterator.init (master_key : List Int → List ℕ) (max_index max_account : ℕ) :
    ScriptIterator :=
  let ds := expandRegistry Indy.descriptors max_index max_account
  ⟨master_key, 0, ds, (ds.map (fun d => d.total_scripts)).sum⟩

/-- `ScriptIterator._next_descriptor_script`: fetch the next script from the
descriptor under the cursor; if it is exhausted, delete it in place
(`del` then `index -= 1`), then `index += 1` and wrap to 0 past the end.
A raised `InvalidPathError` propagates leaving the state unchanged. -/
def ScriptIterator.next_descriptor_script (build : ScriptType → List ℕ → List ℕ)
    (s : ScriptIterator) :
    Except InvalidPathError (Option ScriptResult) × ScriptIterator :=
  let descriptor := getIdx s.descriptors s.index.toNat dfltDSI
  match descriptor.next_script s.master_key build with
  | (.error e, _) => (.error e, s)
  | (.ok it, d2) =>
    let ds := if it.isNone then delAt s.descriptors s.index.toNat
              else setAt s.descriptors s.index.toNat d2
    let i1 := if it.isNone then s.index - 1 + 1 else s.index + 1
    let i2 := if (ds.length : Int) ≤ i1 then 0 else i1
    (.ok it, ⟨s.master_key, i2, ds, s.total_scripts⟩)

/-- The `while` loop of `ScriptIterator.next_script`, fuelled: each pass
either returns a script, returns an error, or removes one exhausted
descriptor and retries; fuel `length + 1` is enough for any reachable state. -/
def ScriptIterator.nextAux (build : ScriptType → List ℕ → List ℕ) :
    ℕ → ScriptIterator → Except InvalidPathError (Option ScriptResult) × ScriptIterator
  | 0, s => (.ok none, s)
  | fuel + 1, s =>
    if s.descriptors.length = 0 then (.ok none, s)
    else
      match s.next_descriptor_script build with
      | (.ok none, s2) => ScriptIterator.nextAux build fuel s2
      | r => r

/-- `ScriptIterator.next_script`: cycle the descriptors until one produces a
script or the collection is empty. -/
def ScriptIterator.next_script (build : ScriptType → List ℕ → List ℕ)
    (s : ScriptIterator) :
    Except InvalidPathError (Option ScriptResult) × ScriptIterator :=
  ScriptIterator.nextAux build (s.descriptors.length + 1) s

/-- Trace of `n` successive `DescriptorScriptIterator.next_script` calls:
the list of call results and the final state. -/
def DescriptorScriptIterator.run (master_key : List Int → List ℕ)
    (build : ScriptType → List ℕ → List ℕ) :
    ℕ → DescriptorScriptIterator →
    List (Except InvalidPathError (Option ScriptResult)) × DescriptorScriptIterator
  | 0, d => ([], d)
  | n + 1, d =>
    let s := d.next_script master_key build
    let r := DescriptorScriptIterator.run master_key build n s.2
    (s.1 :: r.1, r.2)

/-- The grid cells at which successive `next_script` calls produce a result. -/
def DescriptorScriptIterator.runCells (master_key : List Int → List ℕ)
    (build : ScriptType → List ℕ → List ℕ) :
    ℕ → DescriptorScriptIterator → List (ℕ × ℕ)
  | 0, _ => []
  | n + 1, d =>
    match d.next_script master_key build with
    | (.ok (some _), d2) =>
      (d.index, d.account) :: DescriptorScriptIterator.runCells master_key build n d2
    | (_, d2) => DescriptorScriptIterator.runCells master_key build n d2

/-- Trace of `n` successive `ScriptIterator.next_script` calls. -/
def ScriptIterator.run (build : ScriptType → List ℕ → List ℕ) :
    ℕ → ScriptIterator →
    List (Except InvalidPathError (Option ScriptResult)) × ScriptIterator
  | 0, s => ([], s)
  | n + 1, s =>
    let r := s.next_script build
    let rest := ScriptIterator.run build n r.2
    (r.1 :: rest.1, rest.2)

/-- A concrete master key for witnesses: every path derives empty bytes. -/
def trivialKey : List Int → List ℕ := fun _ => []

/-- A concrete script builder for witnesses. -/
def trivialBuild : ScriptType → List ℕ → List ℕ := fun _ _ => []

/-- Whether a call result is a produced script (`true`) or null/error. -/
def resFlag : Except InvalidPathError (Option ScriptResult) → Bool
  | .ok (some _) => true
  | _ => false

/-- The `(path, script_type)` pair of a produced result. -/
def resPair : Except InvalidPathError (Option ScriptResult) → Option (Path × ScriptType)
  | .ok (some (_, p, t)) => some (p, t)
  | _ => none

/-- `concatMapRange f n = f 0 ++ f 1 ++ ⋯ ++ f (n-1)`. -/
def concatMapRange (f : ℕ → List α) : ℕ → List α
  | 0 => []
  | n + 1 => concatMapRange f n ++ f n

/-- Number of grid cells on anti-diagonal `k` of `[0, mi] × [0, ma]`. -/
def diagLen (mi ma k : ℕ) : ℕ := min k ma - (k - min k mi) + 1

/-- The cells of anti-diagonal `k` of `[0, mi] × [0, ma]`, account ascending:
the diagonal starts at index `min k mi` and walks down-left. -/
def diagBlock (mi ma k : ℕ) : List (ℕ × ℕ) :=
  (List.range (diagLen mi ma k)).map (fun j => (min k mi - j, k - min k mi + j))

/-- All cells of the grid `[0, mi] × [0, ma]` in anti-diagonal order. -/
def sortedCells (mi ma : ℕ) : List (ℕ × ℕ) :=
  concatMapRange (diagBlock mi ma) (mi + ma + 1)

/-- Anti-diagonal precedence: `c` comes strictly before `c2` when its
diagonal `index + account` is smaller, or on the same diagonal when its
account is smaller. -/
def diagLT (c c2 : ℕ × ℕ) : Prop :=
  c.1 + c.2 < c2.1 + c2.2 ∨ (c.1 + c.2 = c2.1 + c2.2 ∧ c.2 < c2.2)

instance : DecidableRel diagLT := fun c c2 => by
  unfold diagLT; infer_instance

instance : IsTrans (ℕ × ℕ) diagLT :=
  ⟨by intro a b c h1 h2; rw [diagLT] at *; omega⟩

/-- One cursor-advance step relates `c` to `c2`. -/
def advStep (mi ma : ℕ) (c c2 : ℕ × ℕ) : Prop :=
  advanceCell mi ma c.1 c.2 = c2

/-- Position of the first occurrence of `x` in `l` (`l.length` when absent). -/
def cellPos (x : ℕ × ℕ) : List (ℕ × ℕ) → ℕ
  | [] => 0
  | y :: t => if y = x then 0 else cellPos x t + 1

/-- The cursor is inside the grid, so the next call will produce a script. -/
def DescriptorScriptIterator.inGrid (d : DescriptorScriptIterator) : Prop :=
  d.index ≤ d.max_index ∧ d.account ≤ d.max_account

instance (d : DescriptorScriptIterator) : Decidable d.inGrid := by
  unfold DescriptorScriptIterator.inGrid; infer_instance

/-- The state advanced one diagonal step, as produced by `next_script`. -/
def DescriptorScriptIterator.advanced (d : DescriptorScriptIterator) :
    DescriptorScriptIterator :=
  let c := advanceCell d.max_index d.max_account d.index d.account
  ⟨d.path, d.script_type, c.1, c.2, d.max_index, d.max_account, d.total_scripts⟩

/-- How many scripts this search has already produced: the rank of its
cursor cell in the anti-diagonal enumeration (the full grid size once
exhausted). -/
def DescriptorScriptIterator.produced (d : DescriptorScriptIterator) : ℕ :=
  cellPos (d.index, d.account) (sortedCells d.max_index d.max_account)

/-- How many scripts this search will still produce. -/
def DescriptorScriptIterator.remaining (d : DescriptorScriptIterator) : ℕ :=
  (sortedCells d.max_index d.max_account).length - d.produced

/-- Total number of scripts the scheduler will still produce. -/
def ScriptIterator.pending (s : ScriptIterator) : ℕ :=
  (s.descriptors.map (fun d => d.remaining)).sum

/-- The scheduler cursor invariant: the collection is empty, or the cursor
is a valid index into it. -/
def ScriptIterator.CursorOK (s : ScriptIterator) : Prop :=
  s.descriptors = [] ∨ (0 ≤ s.index ∧ s.index < (s.descriptors.length : Int))

/-- Round-robin balance: for some cycle count `K`, every search before the
cursor has produced `K + 1` scripts and every search at or after it `K`. -/
def ScriptIterator.Fair (s : ScriptIterator) : Prop :=
  ∃ K : ℕ, ∀ p, p < s.descriptors.length →
    (getIdx s.descriptors p dfltDSI).produced =
      K + (if (p : Int) < s.index then 1 else 0)

/-- A path segment that resolves for every placeholder binding: a literal
digit run (optionally hardened) or a bare placeholder (optionally hardened). -/
def segOK (seg : List Char) : Prop :=
  seg = ['a'] ∨ seg = ['a', apos] ∨ seg = ['i'] ∨ seg = ['i', apos] ∨
  (seg ≠ [] ∧ ∀ c ∈ seg, isDigitCh c = true) ∨
  (seg.getLast? = some apos ∧ seg.dropLast ≠ [] ∧ ∀ c ∈ seg.dropLast, isDigitCh c = true)

instance (seg : List Char) : Decidable (segOK seg) := by
  unfold segOK; infer_instance

/-- Every segment after the master marker is a resolvable segment. -/
def pathOK (p : Path) : Prop :=
  ∀ seg ∈ (splitChar slash p.path).drop 1, segOK seg

instance (p : Path) : Decidable (pathOK p) := by
  unfold pathOK; infer_instance

/-- All descriptor paths held by the scheduler resolve at every cell. -/
def ScriptIterator.PathsOK (s : ScriptIterator) : Prop :=
  ∀ d ∈ s.descriptors, pathOK d.path

/-- The scheduler invariant carried through every call. -/
def ScriptIterator.Inv (s : ScriptIterator) : Prop :=
  s.CursorOK ∧ s.Fair ∧ s.PathsOK

/-- `to_list` succeeds at every cell of the grid `[0, mi] × [0, ma]` after
binding the account, exactly as `next_script` invokes it. -/
def resolvesOn (p : Path) (mi ma : ℕ) : Bool :=
  (List.range (mi + 1)).all fun i =>
    (List.range (ma + 1)).all fun a =>
      ((p.with_account (a : Int)).to_list (some (i : Int)) none).isSome

/-- A concrete two-placeholder template search over the 3 × 2 grid, used for
the worked traversal example. -/
def demoSearch : DescriptorScriptIterator :=
  ⟨tpl (r"m/ah/i"), ScriptType.LEGACY, 0, 0, 2, 1, 6⟩

/-- The call result `next_script` returns at grid cell `c` of a search over
template `p` with script type `st` (used to describe whole run traces). -/
def cellResult (mk : List Int → List ℕ) (build : ScriptType → List ℕ → List ℕ)
    (p : Path) (st : ScriptType) (c : ℕ × ℕ) :
    Except InvalidPathError (Option ScriptResult) :=
  Except.ok (some
    (build st (mk (((p.with_account (c.2 : Int)).to_list (some (c.1 : Int)) none).getD [])),
      p.with_account (c.2 : Int), st))

/-! ### Basic list utilities -/

theorem getIdx_cons_succ (x : α) (xs : List α) (n : ℕ) (dflt : α) :
    getIdx (x :: xs) (n + 1) dflt = getIdx xs n dflt := rfl

theorem length_setAt (l : List α) (n : ℕ) (x : α) : (setAt l n x).length = l.length := by
  induction l generalizing n with
  | nil => rfl
  | cons y ys ih =>
    cases n with
    | zero => rfl
    | succ m => simp [setAt, ih]

theorem getIdx_setAt_self (l : List α) (n : ℕ) (x : α) (dflt : α) (h : n < l.length) :
    getIdx (setAt l n x) n dflt = x := by
  induction l generalizing n with
  | nil => simp at h
  | cons y ys ih =>
    cases n with
    | zero => rfl
    | succ m => exact ih m (by simpa using h)

theorem getIdx_setAt_other (l : List α) (n m : ℕ) (x : α) (dflt : α) (h : m ≠ n) :
    getIdx (setAt l n x) m dflt = getIdx l m dflt := by
  induction l generalizing n m with
  | nil => cases n <;> rfl
  | cons y ys ih =>
    cases n with
    | zero => cases m with
      | zero => exact absurd rfl h
      | succ k => rfl
    | succ j => cases m with
      | zero => rfl
      | succ k => exact ih j k (by omega)

theorem mem_setAt (l : List α) (n : ℕ) (x y : α) :
    y ∈ setAt l n x → y = x ∨ y ∈ l := by
  induction l generalizing n with
  | nil => intro h; simp [setAt] at h
  | cons z zs ih =>
    intro h
    cases n with
    | zero =>
      rcases List.mem_cons.mp h with h | h
      · exact Or.inl h
      · exact Or.inr (List.mem_cons_of_mem _ h)
    | succ m =>
      rcases List.mem_cons.mp h with h | h
      · exact Or.inr (by simp [h])
      · rcases ih m h with h2 | h2
        · exact Or.inl h2
        · exact Or.inr (List.mem_cons_of_mem _ h2)

theorem length_delAt (l : List α) (n : ℕ) (h : n < l.length) :
    (delAt l n).length + 1 = l.length := by
  induction l generalizing n with
  | nil => simp at h
  | cons y ys ih =>
    cases n with
    | zero => rfl
    | succ m => simpa [delAt] using ih m (by simpa using h)

theorem getIdx_delAt_lt (l : List α) (n m : ℕ) (dflt : α) (h : m < n) :
    getIdx (delAt l n) m dflt = getIdx l m dflt := by
  induction l generalizing n m with
  | nil => cases n <;> rfl
  | cons y ys ih =>
    cases n with
    | zero => omega
    | succ j =>
      cases m with
      | zero => rfl
      | succ k => exact ih j k (by omega)

theorem getIdx_delAt_ge (l : List α) (n m : ℕ) (dflt : α) (h : n ≤ m) :
    getIdx (delAt l n) m dflt = getIdx l (m + 1) dflt := by
  induction l generalizing n m with
  | nil => cases n <;> rfl
  | cons y ys ih =>
    cases n with
    | zero => rfl
    | succ j =>
      cases m with
      | zero => omega
      | succ k => exact ih j k (by omega)

theorem mem_delAt (l : List α) (n : ℕ) (y : α) : y ∈ delAt l n → y ∈ l := by
  induction l generalizing n with
  | nil => intro h; simp [delAt] at h
  | cons z zs ih =>
    intro h
    cases n with
    | zero => exact List.mem_cons_of_mem _ h
    | succ m =>
      rcases List.mem_cons.mp h with h | h
      · simp [h]
      · exact List.mem_cons_of_mem _ (ih m h)

theorem mem_getIdx (l : List α) (dflt : α) (p : ℕ) (h : p < l.length) :
    getIdx l p dflt ∈ l := by
  induction l generalizing p with
  | nil => simp at h
  | cons y ys ih =>
    cases p with
    | zero => simp [getIdx]
    | succ m => exact List.mem_cons_of_mem _ (ih m (by simpa using h))

theorem mem_iff_getIdx (l : List α) (dflt : α) (y : α) :
    y ∈ l ↔ ∃ p, p < l.length ∧ getIdx l p dflt = y := by
  constructor
  · induction l with
    | nil => intro h; simp at h
    | cons z zs ih =>
      intro h
      rcases List.mem_cons.mp h with h | h
      · exact ⟨0, by simp, h.symm⟩
      · obtain ⟨p, hp, he⟩ := ih h
        exact ⟨p + 1, by simpa using hp, he⟩
  · rintro ⟨p, hp, rfl⟩
    exact mem_getIdx l dflt p hp

theorem sum_map_setAt (l : List DescriptorScriptIterator) (f : DescriptorScriptIterator → ℕ)
    (n : ℕ) (x : DescriptorScriptIterator) (dflt : DescriptorScriptIterator)
    (h : n < l.length) :
    ((setAt l n x).map f).sum + f (getIdx l n dflt) = (l.map f).sum + f x := by
  induction l generalizing n with
  | nil => simp at h
  | cons y ys ih =>
    cases n with
    | zero => simp [setAt, getIdx]; ring
    | succ m =>
      have := ih m (by simpa using h)
      simp only [setAt, getIdx, List.map_cons, List.sum_cons]
      omega

theorem sum_map_delAt (l : List DescriptorScriptIterator) (f : DescriptorScriptIterator → ℕ)
    (n : ℕ) (dflt : DescriptorScriptIterator) (h : n < l.length) :
    ((delAt l n).map f).sum + f (getIdx l n dflt) = (l.map f).sum := by
  induction l generalizing n with
  | nil => simp at h
  | cons y ys ih =>
    cases n with
    | zero => simp [delAt, getIdx]; ring
    | succ m =>
      have := ih m (by simpa using h)
      simp only [delAt, getIdx, List.map_cons, List.sum_cons]
      omega

theorem sum_map_congr (l : List α) (f g : α → ℕ) (h : ∀ x ∈ l, f x = g x) :
    (l.map f).sum = (l.map g).sum := by
  induction l with
  | nil => rfl
  | cons y ys ih =>
    simp only [List.map_cons, List.sum_cons, h y (by simp)]
    rw [ih (fun x hx => h x (List.mem_cons_of_mem _ hx))]

/-! ### Decimal rendering and parsing -/

theorem natToCharsAux_congr : ∀ n f1 f2, n < f1 → n < f2 →
    natToCharsAux f1 n = natToCharsAux f2 n := by
  intro n
  induction n using Nat.strong_induction_on with
  | _ n ih =>
    intro f1 f2 h1 h2
    match f1, f2 with
    | g1 + 1, g2 + 1 =>
      by_cases h : n < 10
      · simp [natToCharsAux, h]
      · have hd : n / 10 < n := Nat.div_lt_self (by omega) (by omega)
        simp only [natToCharsAux, if_neg h]
        rw [ih (n / 10) hd g1 g2 (by omega) (by omega)]

theorem natToChars_eq (n : ℕ) :
    natToChars n = if n < 10 then [digitChar n]
      else natToChars (n / 10) ++ [digitChar (n % 10)] := by
  have h2 : natToCharsAux (n + 1) n =
      if n < 10 then [digitChar n] else natToCharsAux n (n / 10) ++ [digitChar (n % 10)] := rfl
  by_cases h : n < 10
  · rw [natToChars, h2, if_pos h, if_pos h]
  · have hd : n / 10 < n := Nat.div_lt_self (by omega) (by omega)
    rw [natToChars, h2, if_neg h, if_neg h,
      natToCharsAux_congr (n / 10) n (n / 10 + 1) hd (by omega)]
    rfl

theorem digitVal_digitChar {n : ℕ} (h : n < 10) : digitVal (digitChar n) = some n := by
  interval_cases n <;> decide

theorem isDigitCh_digitChar {n : ℕ} (h : n < 10) : isDigitCh (digitChar n) = true := by
  interval_cases n <;> decide

theorem natToChars_ne_nil (n : ℕ) : natToChars n ≠ [] := by
  rw [natToChars_eq]
  by_cases h : n < 10 <;> simp [h]

theorem mem_natToChars_digit (n : ℕ) : ∀ c ∈ natToChars n, isDigitCh c = true := by
  induction n using Nat.strong_induction_on with
  | _ n ih =>
    intro c hc
    rw [natToChars_eq] at hc
    by_cases h : n < 10
    · simp only [if_pos h, List.mem_singleton] at hc
      exact hc ▸ isDigitCh_digitChar h
    · have hd : n / 10 < n := Nat.div_lt_self (by omega) (by omega)
      simp only [if_neg h, List.mem_append, List.mem_singleton] at hc
      rcases hc with hc | hc
      · exact ih (n / 10) hd c hc
      · exact hc ▸ isDigitCh_digitChar (by omega)

theorem parseNatAux_append (l1 l2 : List Char) : ∀ acc,
    parseNatAux acc (l1 ++ l2) =
      match parseNatAux acc l1 with
      | none => none
      | some a => parseNatAux a l2 := by
  induction l1 with
  | nil => intro acc; rfl
  | cons c cs ih =>
    intro acc
    simp only [List.cons_append, parseNatAux]
    cases digitVal c with
    | none => rfl
    | some d => exact ih _

theorem parseNatAux_natToChars (n : ℕ) : ∀ acc,
    parseNatAux acc (natToChars n) = some (acc * 10 ^ (natToChars n).length + n) := by
  induction n using Nat.strong_induction_on with
  | _ n ih =>
    intro acc
    by_cases h : n < 10
    · rw [natToChars_eq, if_pos h]
      simp only [parseNatAux, digitVal_digitChar h, List.length_singleton, pow_one]
      congr 2
      ring
    · have hd : n / 10 < n := Nat.div_lt_self (by omega) (by omega)
      conv in natToChars n => rw [natToChars_eq, if_neg h]
      rw [parseNatAux_append, ih (n / 10) hd acc]
      simp only [parseNatAux, digitVal_digitChar (show n % 10 < 10 by omega)]
      have hlen : (natToChars n).length = (natToChars (n / 10)).length + 1 := by
        rw [natToChars_eq, if_neg h]; simp
      rw [hlen]
      congr 1
      have h10 : 10 * (n / 10) + n % 10 = n := by omega
      calc 10 * (acc * 10 ^ (natToChars (n / 10)).length + n / 10) + n % 10
          = acc * (10 ^ (natToChars (n / 10)).length * 10) + (10 * (n / 10) + n % 10) := by
            ring
        _ = acc * 10 ^ ((natToChars (n / 10)).length + 1) + n := by rw [h10, pow_succ]

theorem parseNatAux_digits_isSome (l : List Char) (h : ∀ c ∈ l, isDigitCh c = true) :
    ∀ acc, ∃ m, parseNatAux acc l = some m := by
  induction l with
  | nil => exact fun acc => ⟨acc, rfl⟩
  | cons c cs ih =>
    intro acc
    have hc : isDigitCh c = true := h c (by simp)
    have hv : ∃ d, digitVal c = some d := by
      simp only [isDigitCh, Bool.and_eq_true, decide_eq_true_eq] at hc
      exact ⟨c.toNat - 48, by simp [digitVal, hc.1, hc.2]⟩
    obtain ⟨d, hd⟩ := hv
    simp only [parseNatAux, hd]
    exact ih (fun x hx => h x (List.mem_cons_of_mem _ hx)) _

theorem not_isDigitCh_ne {c d : Char} (hc : isDigitCh c = true) (hd : isDigitCh d = false) :
    c ≠ d := by
  intro h; rw [h, hd] at hc; exact Bool.noConfusion hc

theorem pyInt_digits (l : List Char) (hne : l ≠ []) (h : ∀ c ∈ l, isDigitCh c = true) :
    pyInt l = (parseNatAux 0 l).map (fun n => (n : Int)) := by
  cases l with
  | nil => exact absurd rfl hne
  | cons c cs =>
    have hc : isDigitCh c = true := h c (by simp)
    have : ¬ c = Char.ofNat 45 := by
      intro he
      rw [he] at hc
      exact Bool.noConfusion ((by decide : isDigitCh (Char.ofNat 45) = false) ▸ hc)
    simp [pyInt, this]

theorem pyInt_natToChars (n : ℕ) : pyInt (natToChars n) = some ((n : Int)) := by
  rw [pyInt_digits _ (natToChars_ne_nil n) (mem_natToChars_digit n),
    parseNatAux_natToChars n 0]
  simp

theorem pyInt_digits_isSome (l : List Char) (hne : l ≠ [])
    (hdig : ∀ c ∈ l, isDigitCh c = true) : (pyInt l).isSome = true := by
  rw [pyInt_digits l hne hdig]
  obtain ⟨m, hm⟩ := parseNatAux_digits_isSome l hdig 0
  simp [hm]

/-! ### Replacement and splitting -/

theorem replaceChar_append (c : Char) (rep l1 l2 : List Char) :
    replaceChar c rep (l1 ++ l2) = replaceChar c rep l1 ++ replaceChar c rep l2 := by
  induction l1 with
  | nil => rfl
  | cons x xs ih =>
    by_cases hx : x = c
    · simp [replaceChar, hx, ih]
    · simp [replaceChar, hx, ih]

theorem replaceChar_of_not_mem {c : Char} {l : List Char} (rep : List Char) (h : c ∉ l) :
    replaceChar c rep l = l := by
  induction l with
  | nil => rfl
  | cons x xs ih =>
    have hx : ¬ x = c := fun he => h (by simp [he])
    simp only [replaceChar, if_neg hx]
    rw [ih (fun hm => h (List.mem_cons_of_mem _ hm))]

theorem mem_replaceChar {x c : Char} {rep l : List Char} :
    x ∈ replaceChar c rep l → (x ∈ l ∧ x ≠ c) ∨ x ∈ rep := by
  induction l with
  | nil => intro h; simp [replaceChar] at h
  | cons y ys ih =>
    intro h
    by_cases hy : y = c
    · simp only [replaceChar, if_pos hy, List.mem_append] at h
      rcases h with h | h
      · exact Or.inr h
      · rcases ih h with ⟨h1, h2⟩ | h1
        · exact Or.inl ⟨List.mem_cons_of_mem _ h1, h2⟩
        · exact Or.inr h1
    · simp only [replaceChar, if_neg hy, List.mem_cons] at h
      rcases h with h | h
      · exact Or.inl ⟨by simp [h], by rw [h]; exact fun he => hy he⟩
      · rcases ih h with ⟨h1, h2⟩ | h1
        · exact Or.inl ⟨List.mem_cons_of_mem _ h1, h2⟩
        · exact Or.inr h1

theorem splitChar_ne_nil (sep : Char) (l : List Char) : splitChar sep l ≠ [] := by
  induction l with
  | nil => simp [splitChar]
  | cons x xs ih =>
    simp only [splitChar]
    match h : splitChar sep xs with
    | [] => exact absurd h ih
    | h0 :: t0 =>
      by_cases hx : x = sep <;> simp [hx]

theorem splitChar_cons_reduce (sep x : Char) (xs : List Char) (h0 : List Char)
    (t0 : List (List Char)) (hs : splitChar sep xs = h0 :: t0) :
    splitChar sep (x :: xs) = if x = sep then [] :: h0 :: t0 else (x :: h0) :: t0 := by
  simp only [splitChar, hs]

theorem splitChar_exists_cons (sep : Char) (l : List Char) :
    ∃ h0 t0, splitChar sep l = h0 :: t0 := by
  match h : splitChar sep l with
  | [] => exact absurd h (splitChar_ne_nil sep l)
  | h0 :: t0 => exact ⟨h0, t0, rfl⟩

theorem splitChar_append_pre (sep : Char) (pre l : List Char) (h : ∀ x ∈ pre, x ≠ sep) :
    ∀ h0 t0, splitChar sep l = h0 :: t0 →
      splitChar sep (pre ++ l) = (pre ++ h0) :: t0 := by
  induction pre with
  | nil => intro h0 t0 hs; simpa using hs
  | cons x xs ih =>
    intro h0 t0 hs
    have hx : x ≠ sep := h x (by simp)
    have := ih (fun y hy => h y (List.mem_cons_of_mem _ hy)) h0 t0 hs
    rw [List.cons_append, splitChar_cons_reduce sep x (xs ++ l) (xs ++ h0) t0 this,
      if_neg hx]
    rfl

theorem splitChar_replaceChar (sep c : Char) (rep l : List Char) (hc : c ≠ sep)
    (hrep : ∀ x ∈ rep, x ≠ sep) :
    splitChar sep (replaceChar c rep l) = (splitChar sep l).map (replaceChar c rep) := by
  induction l with
  | nil => rfl
  | cons x xs ih =>
    obtain ⟨h0, t0, hs⟩ := splitChar_exists_cons sep xs
    have hmap : splitChar sep (replaceChar c rep xs) =
        replaceChar c rep h0 :: t0.map (replaceChar c rep) := by
      rw [ih, hs]; rfl
    by_cases hx : x = c
    · have hrx : replaceChar c rep (x :: xs) = rep ++ replaceChar c rep xs := by
        simp [replaceChar, hx]
      rw [hrx, splitChar_append_pre sep rep (replaceChar c rep xs) hrep _ _ hmap,
        splitChar_cons_reduce sep x xs h0 t0 hs, if_neg (hx ▸ hc)]
      simp only [List.map_cons]
      rw [hx]
      simp [replaceChar]
    · have hrx : replaceChar c rep (x :: xs) = x :: replaceChar c rep xs := by
        simp [replaceChar, hx]
      rw [hrx, splitChar_cons_reduce sep x (replaceChar c rep xs) _ _ hmap,
        splitChar_cons_reduce sep x xs h0 t0 hs]
      by_cases hxs : x = sep
      · simp only [if_pos hxs, List.map_cons]
        rfl
      · simp only [if_neg hxs, List.map_cons]
        congr 1
        simp [replaceChar, hx]

/-! ### Resolvable segments -/

theorem getLast_mem_self (l : List Char) (h : l ≠ []) :
    ∃ c, l.getLast? = some c ∧ c ∈ l := by
  induction l with
  | nil => exact absurd rfl h
  | cons x xs ih =>
    cases xs with
    | nil => exact ⟨x, rfl, by simp⟩
    | cons y ys =>
      obtain ⟨c, hc, hm⟩ := ih (by simp)
      exact ⟨c, by rw [List.getLast?_cons_cons]; exact hc, List.mem_cons_of_mem _ hm⟩

theorem eq_dropLast_concat_of_getLast (l : List Char) (x : Char) :
    l.getLast? = some x → l = l.dropLast ++ [x] := by
  intro h
  have hne : l ≠ [] := by intro he; rw [he] at h; simp at h
  have h2 := List.dropLast_append_getLast hne
  have h3 : l.getLast hne = x := by
    rw [List.getLast?_eq_getLast l hne] at h
    exact Option.some_inj.mp h
  rw [← h3]
  exact h2.symm

theorem partIndex_digits (l : List Char) (hne : l ≠ [])
    (hdig : ∀ c ∈ l, isDigitCh c = true) : (partIndex l).isSome = true := by
  obtain ⟨c, hgl, hcm⟩ := getLast_mem_self l hne
  have hca : ¬ l.getLast? = some apos := by
    rw [hgl]
    intro he
    have hc : c = apos := by simpa using he
    have hd := hdig c hcm
    rw [hc] at hd
    exact Bool.noConfusion ((by decide : isDigitCh apos = false).symm.trans hd)
  rw [partIndex, if_neg hca]
  exact pyInt_digits_isSome l hne hdig

theorem partIndex_digits_apos (l : List Char) (hne : l ≠ [])
    (hdig : ∀ c ∈ l, isDigitCh c = true) : (partIndex (l ++ [apos])).isSome = true := by
  rw [partIndex, if_pos (by rw [List.getLast?_concat]), List.dropLast_concat]
  obtain ⟨m, hm⟩ := parseNatAux_digits_isSome l hdig 0
  rw [pyInt_digits l hne hdig, hm]
  simp

theorem not_mem_digits {c : Char} (hc : isDigitCh c = false) (l : List Char)
    (hdig : ∀ x ∈ l, isDigitCh x = true) : c ∉ l := by
  intro hm
  rw [hdig c hm] at hc
  exact Bool.noConfusion hc

theorem partIndex_subst (i a : ℕ) (seg : List Char) (hOK : segOK seg) :
    (partIndex (replaceChar 'i' (natToChars i) (replaceChar 'a' (natToChars a) seg))).isSome
      = true := by
  have hAdig := mem_natToChars_digit a
  have hIdig := mem_natToChars_digit i
  have hiA : 'i' ∉ natToChars a := not_mem_digits (by decide) _ hAdig
  rcases hOK with h | h | h | h | ⟨hne, hdig⟩ | ⟨hlast, hne, hdig⟩
  · subst h
    have h1 : replaceChar 'a' (natToChars a) ['a'] = natToChars a := by
      simp [replaceChar]
    rw [h1, replaceChar_of_not_mem _ hiA]
    exact partIndex_digits _ (natToChars_ne_nil a) hAdig
  · subst h
    have h1 : replaceChar 'a' (natToChars a) ['a', apos] = natToChars a ++ [apos] := by
      simp [replaceChar, (by decide : ¬ apos = 'a')]
    have h2 : 'i' ∉ natToChars a ++ [apos] := by
      simp only [List.mem_append, List.mem_singleton]
      rintro (hm | hm)
      · exact hiA hm
      · exact (by decide : ('i' : Char) ≠ apos) hm
    rw [h1, replaceChar_of_not_mem _ h2]
    exact partIndex_digits_apos _ (natToChars_ne_nil a) hAdig
  · subst h
    have h1 : replaceChar 'a' (natToChars a) ['i'] = ['i'] :=
      replaceChar_of_not_mem _ (by decide)
    have h2 : replaceChar 'i' (natToChars i) ['i'] = natToChars i := by
      simp [replaceChar]
    rw [h1, h2]
    exact partIndex_digits _ (natToChars_ne_nil i) hIdig
  · subst h
    have h1 : replaceChar 'a' (natToChars a) ['i', apos] = ['i', apos] :=
      replaceChar_of_not_mem _ (by decide)
    have h2 : replaceChar 'i' (natToChars i) ['i', apos] = natToChars i ++ [apos] := by
      simp [replaceChar, (by decide : ¬ apos = 'i')]
    rw [h1, h2]
    exact partIndex_digits_apos _ (natToChars_ne_nil i) hIdig
  · have h1 : replaceChar 'a' (natToChars a) seg = seg :=
      replaceChar_of_not_mem _ (not_mem_digits (by decide) seg hdig)
    have h2 : replaceChar 'i' (natToChars i) seg = seg :=
      replaceChar_of_not_mem _ (not_mem_digits (by decide) seg hdig)
    rw [h1, h2]
    exact partIndex_digits seg hne hdig
  · have hseg : seg = seg.dropLast ++ [apos] :=
      eq_dropLast_concat_of_getLast seg apos hlast
    have h2 : 'a' ∉ seg.dropLast ++ [apos] := by
      simp only [List.mem_append, List.mem_singleton]
      rintro (hm | hm)
      · exact not_mem_digits (by decide) _ hdig hm
      · exact (by decide : ('a' : Char) ≠ apos) hm
    have h3 : 'i' ∉ seg.dropLast ++ [apos] := by
      simp only [List.mem_append, List.mem_singleton]
      rintro (hm | hm)
      · exact not_mem_digits (by decide) _ hdig hm
      · exact (by decide : ('i' : Char) ≠ apos) hm
    rw [hseg, replaceChar_of_not_mem _ h2, replaceChar_of_not_mem _ h3]
    exact partIndex_digits_apos _ hne hdig

theorem optMapM_isSome (f : α → Option β) (l : List α)
    (h : ∀ x ∈ l, (f x).isSome = true) : (optMapM f l).isSome = true := by
  induction l with
  | nil => rfl
  | cons x xs ih =>
    obtain ⟨y, hy⟩ := Option.isSome_iff_exists.mp (h x (by simp))
    have := ih (fun z hz => h z (List.mem_cons_of_mem _ hz))
    obtain ⟨ys, hys⟩ := Option.isSome_iff_exists.mp this
    simp [optMapM, hy, hys]

theorem optMapM_eq_none_iff (f : α → Option β) (l : List α) :
    optMapM f l = none ↔ ∃ x ∈ l, f x = none := by
  induction l with
  | nil => simp [optMapM]
  | cons x xs ih =>
    constructor
    · intro h
      match hf : f x with
      | none => exact ⟨x, by simp, hf⟩
      | some y =>
        rw [optMapM, hf] at h
        match hm : optMapM f xs with
        | some ys => rw [hm] at h; simp at h
        | none =>
          obtain ⟨z, hz, hfz⟩ := ih.mp hm
          exact ⟨z, List.mem_cons_of_mem _ hz, hfz⟩
    · rintro ⟨z, hz, hfz⟩
      rcases List.mem_cons.mp hz with hz | hz
      · have hfx : f x = none := by rw [← hz]; exact hfz
        rw [optMapM, hfx]
      · rw [optMapM]
        match hf : f x with
        | none => rfl
        | some y => rw [ih.mpr ⟨z, hz, hfz⟩]; rfl

/-! ### A resolvable path resolves at every cell -/

theorem intToChars_ofNat (n : ℕ) : intToChars (n : Int) = natToChars n := by
  rw [intToChars, if_neg (by omega)]
  simp

theorem pathOK_resolves (p : Path) (hOK : pathOK p) (i a : ℕ) :
    ((p.with_account (a : Int)).to_list (some (i : Int)) none).isSome = true := by
  have hAdig := mem_natToChars_digit a
  have hIdig := mem_natToChars_digit i
  have haq : 'a' ∉ replaceChar 'a' (natToChars a) p.path := by
    intro hm
    rcases mem_replaceChar hm with ⟨_, hne⟩ | hm2
    · exact hne rfl
    · exact not_mem_digits (by decide) _ hAdig hm2
  simp only [Path.to_list, Path.parts_of, Path.with_account, intToChars_ofNat, substOpt]
  rw [replaceChar_of_not_mem _ haq,
    splitChar_replaceChar slash 'i' (natToChars i) _ (by decide)
      (fun x hx => not_isDigitCh_ne (hIdig x hx) (by decide)),
    splitChar_replaceChar slash 'a' (natToChars a) _ (by decide)
      (fun x hx => not_isDigitCh_ne (hAdig x hx) (by decide)),
    List.map_map, ← List.map_drop]
  apply optMapM_isSome
  intro seg hseg
  obtain ⟨seg0, hseg0, rfl⟩ := List.mem_map.mp hseg
  exact partIndex_subst i a seg0 (hOK seg0 hseg0)

/-- Every registry template is made of resolvable segments. -/
theorem registry_pathOK : ∀ pr ∈ descriptors, pathOK pr.1 := by decide

/-! ### The anti-diagonal enumeration -/

theorem mem_concatMapRange (f : ℕ → List α) (n : ℕ) (x : α) :
    x ∈ concatMapRange f n ↔ ∃ k, k < n ∧ x ∈ f k := by
  induction n with
  | zero => simp [concatMapRange]
  | succ m ih =>
    simp only [concatMapRange, List.mem_append, ih]
    constructor
    · rintro (⟨k, hk, hx⟩ | hx)
      · exact ⟨k, by omega, hx⟩
      · exact ⟨m, by omega, hx⟩
    · rintro ⟨k, hk, hx⟩
      by_cases he : k = m
      · exact Or.inr (he ▸ hx)
      · exact Or.inl ⟨k, by omega, hx⟩

theorem mem_diagBlock (mi ma k : ℕ) (c : ℕ × ℕ) :
    c ∈ diagBlock mi ma k ↔
      ∃ j, j < diagLen mi ma k ∧ c = (min k mi - j, k - min k mi + j) := by
  simp only [diagBlock, List.mem_map, List.mem_range]
  constructor
  · rintro ⟨j, hj, rfl⟩
    exact ⟨j, hj, rfl⟩
  · rintro ⟨j, hj, rfl⟩
    exact ⟨j, hj, rfl⟩

theorem mem_sortedCells (mi ma : ℕ) (c : ℕ × ℕ) :
    c ∈ sortedCells mi ma ↔ c.1 ≤ mi ∧ c.2 ≤ ma := by
  rw [sortedCells, mem_concatMapRange]
  constructor
  · rintro ⟨k, hk, hc⟩
    obtain ⟨j, hj, rfl⟩ := (mem_diagBlock mi ma k c).mp hc
    rw [diagLen] at hj
    dsimp only
    omega
  · rintro ⟨h1, h2⟩
    refine ⟨c.1 + c.2, by omega, (mem_diagBlock mi ma _ c).mpr ?_⟩
    refine ⟨c.2 - ((c.1 + c.2) - min (c.1 + c.2) mi), ?_, ?_⟩
    · rw [diagLen]; omega
    · rw [Prod.ext_iff]
      dsimp only
      omega

theorem diagBlock_zero (mi ma : ℕ) : diagBlock mi ma 0 = [(0, 0)] := by
  have h1 : diagLen mi ma 0 = 1 := by rw [diagLen]; omega
  rw [diagBlock, h1]
  have h3 : (List.range 1).map (fun j => (min 0 mi - j, 0 - min 0 mi + j)) =
      [(min 0 mi - 0, 0 - min 0 mi + 0)] := rfl
  rw [h3]
  have h4 : (min 0 mi - 0, 0 - min 0 mi + 0) = ((0 : ℕ), (0 : ℕ)) := by
    rw [Prod.ext_iff]
    dsimp only
    omega
  rw [h4]

theorem advanceCell_border (mi ma i a : ℕ) (h : i = 0 ∨ a = ma) :
    advanceCell mi ma i a = (min (i + a + 1) mi, (i + a + 1) - min (i + a + 1) mi) := by
  rw [advanceCell, if_pos h]

theorem advanceCell_inner (mi ma i a : ℕ) (h : ¬ (i = 0 ∨ a = ma)) :
    advanceCell mi ma i a = (i - 1, a + 1) := by
  rw [advanceCell, if_neg h]

theorem chain'_map_range (R : ℕ × ℕ → ℕ × ℕ → Prop) :
    ∀ (n : ℕ) (f : ℕ → ℕ × ℕ), (∀ j, j + 1 < n → R (f j) (f (j + 1))) →
      List.Chain' R ((List.range n).map f) := by
  intro n
  induction n with
  | zero => intro f _; exact List.chain'_nil
  | succ m ih =>
    intro f hf
    rw [List.range_succ_eq_map, List.map_cons, List.map_map]
    cases m with
    | zero => exact List.chain'_singleton _
    | succ m2 =>
      rw [List.range_succ_eq_map, List.map_cons, List.map_map, List.chain'_cons]
      constructor
      · exact hf 0 (by omega)
      · have h2 := ih (fun j => f (j + 1)) (fun j hj => hf (j + 1) (by omega))
        rw [List.range_succ_eq_map, List.map_cons, List.map_map] at h2
        exact h2

theorem chain'_diagBlock (mi ma k : ℕ) :
    List.Chain' (advStep mi ma) (diagBlock mi ma k) := by
  rw [diagBlock]
  apply chain'_map_range
  intro j hj
  rw [diagLen] at hj
  rw [advStep, advanceCell_inner]
  · rw [Prod.ext_iff]
    dsimp only
    constructor <;> omega
  · dsimp only
    omega

theorem diagBlock_getLast (mi ma k : ℕ) :
    (diagBlock mi ma k).getLast? =
      some (min k mi - (diagLen mi ma k - 1), k - min k mi + (diagLen mi ma k - 1)) := by
  have h1 : diagLen mi ma k = (diagLen mi ma k - 1) + 1 := by rw [diagLen]; omega
  rw [diagBlock, h1, List.range_succ, List.map_append]
  simp

theorem diagBlock_head (mi ma k : ℕ) :
    (diagBlock mi ma k).head? = some (min k mi, k - min k mi) := by
  have h1 : diagLen mi ma k = (diagLen mi ma k - 1) + 1 := by rw [diagLen]; omega
  rw [diagBlock, h1, List.range_succ_eq_map, List.map_cons]
  simp

theorem diagBlock_ne_nil (mi ma k : ℕ) : diagBlock mi ma k ≠ [] := by
  intro h
  have := congrArg Option.isSome (h ▸ diagBlock_head mi ma k)
  simp at this

theorem diagBlock_bridge (mi ma k : ℕ) (hk : k < mi + ma) :
    advStep mi ma (min k mi - (diagLen mi ma k - 1), k - min k mi + (diagLen mi ma k - 1))
      (min (k + 1) mi, (k + 1) - min (k + 1) mi) := by
  rw [advStep]
  dsimp only
  rw [advanceCell_border]
  · rw [Prod.ext_iff]
    dsimp only
    rw [diagLen]
    constructor <;> omega
  · rw [diagLen]
    omega

theorem getLast?_concatMapRange (g : ℕ → List (ℕ × ℕ)) (n : ℕ)
    (hne : g n ≠ []) :
    (concatMapRange g (n + 1)).getLast? = (g n).getLast? := by
  rw [concatMapRange, List.getLast?_append]
  obtain ⟨x, hx⟩ := Option.isSome_iff_exists.mp (List.getLast?_isSome.mpr hne)
  rw [hx]
  rfl

theorem head?_concatMapRange (g : ℕ → List (ℕ × ℕ)) :
    ∀ n, 1 ≤ n → g 0 ≠ [] → (concatMapRange g n).head? = (g 0).head? := by
  intro n
  induction n with
  | zero => omega
  | succ m ih =>
    intro _ h0
    rw [concatMapRange, List.head?_append]
    cases m with
    | zero => simp [concatMapRange]
    | succ m2 =>
      rw [ih (by omega) h0]
      obtain ⟨x, hx⟩ := Option.isSome_iff_exists.mp
        ((List.head?_eq_head h0) ▸ (by simp : (some ((g 0).head h0)).isSome = true))
      rw [hx]
      rfl

theorem chain'_concatMapRange (R : ℕ × ℕ → ℕ × ℕ → Prop) (g : ℕ → List (ℕ × ℕ)) :
    ∀ n, (∀ k, k < n → List.Chain' R (g k)) →
      (∀ k, k + 1 < n → ∀ x ∈ (g k).getLast?, ∀ y ∈ (g (k + 1)).head?, R x y) →
      (∀ k, k < n → g k ≠ []) →
      List.Chain' R (concatMapRange g n) := by
  intro n
  induction n with
  | zero => intro _ _ _; exact List.chain'_nil
  | succ m ih =>
    intro hchain hbridge hnn
    rw [concatMapRange, List.chain'_append]
    refine ⟨ih (fun k hk => hchain k (by omega)) (fun k hk => hbridge k (by omega))
      (fun k hk => hnn k (by omega)), hchain m (by omega), ?_⟩
    intro x hx y hy
    cases m with
    | zero => simp [concatMapRange] at hx
    | succ m2 =>
      rw [getLast?_concatMapRange g m2 (hnn m2 (by omega))] at hx
      exact hbridge m2 (by omega) x hx y hy

theorem chain'_sortedCells (mi ma : ℕ) :
    List.Chain' (advStep mi ma) (sortedCells mi ma) := by
  rw [sortedCells]
  apply chain'_concatMapRange
  · intro k _
    exact chain'_diagBlock mi ma k
  · intro k hk x hx y hy
    rw [diagBlock_getLast] at hx
    rw [diagBlock_head] at hy
    simp only [Option.mem_def, Option.some_inj] at hx hy
    rw [← hx, ← hy]
    exact diagBlock_bridge mi ma k (by omega)
  · intro k _
    exact diagBlock_ne_nil mi ma k

theorem head?_sortedCells (mi ma : ℕ) : (sortedCells mi ma).head? = some (0, 0) := by
  rw [sortedCells, head?_concatMapRange (diagBlock mi ma) (mi + ma + 1) (by omega)
    (diagBlock_ne_nil mi ma 0), diagBlock_zero]
  rfl

theorem diagBlock_top (mi ma : ℕ) : diagBlock mi ma (mi + ma) = [(mi, ma)] := by
  have h1 : diagLen mi ma (mi + ma) = 1 := by rw [diagLen]; omega
  rw [diagBlock, h1]
  have h3 : (List.range 1).map
      (fun j => (min (mi + ma) mi - j, (mi + ma) - min (mi + ma) mi + j)) =
      [(min (mi + ma) mi - 0, (mi + ma) - min (mi + ma) mi + 0)] := rfl
  rw [h3]
  have h4 : (min (mi + ma) mi - 0, (mi + ma) - min (mi + ma) mi + 0) = (mi, ma) := by
    rw [Prod.ext_iff]
    dsimp only
    omega
  rw [h4]

theorem getLast?_sortedCells (mi ma : ℕ) :
    (sortedCells mi ma).getLast? = some (mi, ma) := by
  rw [sortedCells, getLast?_concatMapRange (diagBlock mi ma) (mi + ma)
    (diagBlock_ne_nil mi ma (mi + ma)), diagBlock_top]
  rfl

theorem advanceCell_diagLT (mi ma i a : ℕ) :
    diagLT (i, a) (advanceCell mi ma i a) := by
  by_cases h : i = 0 ∨ a = ma
  · rw [advanceCell_border mi ma i a h, diagLT]
    dsimp only
    omega
  · rw [advanceCell_inner mi ma i a h, diagLT]
    dsimp only
    omega

theorem chain'_diagLT_of_advStep (mi ma : ℕ) (l : List (ℕ × ℕ))
    (h : List.Chain' (advStep mi ma) l) : List.Chain' diagLT l := by
  rw [List.chain'_iff_get] at h ⊢
  intro i hi
  have h2 := h i hi
  rw [advStep] at h2
  rw [← h2]
  exact advanceCell_diagLT mi ma _ _

theorem pairwise_sortedCells (mi ma : ℕ) :
    List.Pairwise diagLT (sortedCells mi ma) :=
  List.chain'_iff_pairwise.mp (chain'_diagLT_of_advStep mi ma _ (chain'_sortedCells mi ma))

theorem diagLT_ne {a b : ℕ × ℕ} (h : diagLT a b) : a ≠ b := by
  intro he
  subst he
  rw [diagLT] at h
  omega

theorem nodup_sortedCells (mi ma : ℕ) : (sortedCells mi ma).Nodup :=
  (pairwise_sortedCells mi ma).imp diagLT_ne

theorem length_sortedCells (mi ma : ℕ) :
    (sortedCells mi ma).length = (mi + 1) * (ma + 1) := by
  have h1 : (sortedCells mi ma).toFinset =
      Finset.range (mi + 1) ×ˢ Finset.range (ma + 1) := by
    ext c
    rw [List.mem_toFinset, mem_sortedCells, Finset.mem_product, Finset.mem_range,
      Finset.mem_range]
    omega
  have h2 := List.toFinset_card_of_nodup (nodup_sortedCells mi ma)
  rw [h1] at h2
  rw [← h2, Finset.card_product, Finset.card_range, Finset.card_range]

/-! ### Cursor rank in the enumeration -/

theorem cellPos_cons_self (x : ℕ × ℕ) (t : List (ℕ × ℕ)) : cellPos x (x :: t) = 0 := by
  simp [cellPos]

theorem cellPos_le_length (x : ℕ × ℕ) (l : List (ℕ × ℕ)) : cellPos x l ≤ l.length := by
  induction l with
  | nil => simp [cellPos]
  | cons y t ih =>
    rw [cellPos]
    by_cases h : y = x
    · simp [h]
    · rw [if_neg h]
      simpa using ih

theorem cellPos_eq_length_of_not_mem (x : ℕ × ℕ) (l : List (ℕ × ℕ)) (h : x ∉ l) :
    cellPos x l = l.length := by
  induction l with
  | nil => rfl
  | cons y t ih =>
    have hy : ¬ y = x := fun he => h (by simp [he])
    rw [cellPos, if_neg hy, ih (fun hm => h (List.mem_cons_of_mem _ hm))]
    rfl

theorem cellPos_lt_length_of_mem (x : ℕ × ℕ) (l : List (ℕ × ℕ)) :
    x ∈ l → cellPos x l < l.length := by
  induction l with
  | nil => intro h; simp at h
  | cons y t ih =>
    intro h
    rw [cellPos]
    by_cases hy : y = x
    · simp [hy]
    · rw [if_neg hy]
      have hx : x ∈ t := by
        rcases List.mem_cons.mp h with he | hm
        · exact absurd he.symm hy
        · exact hm
      simpa using ih hx

theorem cellPos_append_of_not_mem (x : ℕ × ℕ) (l1 l2 : List (ℕ × ℕ)) (h : x ∉ l1) :
    cellPos x (l1 ++ l2) = l1.length + cellPos x l2 := by
  induction l1 with
  | nil => simp
  | cons y t ih =>
    have hy : ¬ y = x := fun he => h (by simp [he])
    rw [List.cons_append, cellPos, if_neg hy, ih (fun hm => h (List.mem_cons_of_mem _ hm))]
    simp
    omega

theorem cellPos_advance (mi ma : ℕ) (c : ℕ × ℕ) (h1 : c.1 ≤ mi) (h2 : c.2 ≤ ma) :
    cellPos (advanceCell mi ma c.1 c.2) (sortedCells mi ma) =
      cellPos c (sortedCells mi ma) + 1 := by
  have hmem : c ∈ sortedCells mi ma := (mem_sortedCells mi ma c).mpr ⟨h1, h2⟩
  obtain ⟨s, t, hdec⟩ := List.append_of_mem hmem
  have hnd := nodup_sortedCells mi ma
  rw [hdec] at hnd
  rcases List.nodup_append.mp hnd with ⟨hnds, hndct, hdisj⟩
  have hcs : c ∉ s := fun hm => hdisj hm (by simp)
  have hposc : cellPos c (sortedCells mi ma) = s.length := by
    rw [hdec, cellPos_append_of_not_mem _ _ _ hcs, cellPos_cons_self]
    omega
  cases t with
  | nil =>
    have hlast := getLast?_sortedCells mi ma
    rw [hdec, List.getLast?_concat] at hlast
    have hceq : c = (mi, ma) := Option.some_inj.mp hlast
    have hadv : advanceCell mi ma c.1 c.2 = (mi, ma + 1) := by
      rw [hceq]
      rw [advanceCell_border mi ma mi ma (Or.inr rfl), Prod.ext_iff]
      dsimp only
      constructor <;> omega
    have hnm : (mi, ma + 1) ∉ sortedCells mi ma := by
      rw [mem_sortedCells]
      dsimp only
      omega
    rw [hadv, cellPos_eq_length_of_not_mem _ _ hnm, hposc, hdec]
    simp

  | cons y t2 =>
    have hch := chain'_sortedCells mi ma
    rw [hdec] at hch
    have h3 := (List.chain'_append.mp hch).2.1
    have hadv : advanceCell mi ma c.1 c.2 = y := (List.chain'_cons.mp h3).1
    have hys : y ∉ s := fun hm => hdisj hm (by simp)
    have hyc : ¬ c = y := by
      rw [List.nodup_cons] at hndct
      exact fun he => hndct.1 (by rw [he]; simp)
    have h4 : cellPos y (c :: y :: t2) = 1 := by
      rw [cellPos, if_neg hyc, cellPos_cons_self]
    rw [hadv, hposc, hdec, cellPos_append_of_not_mem _ _ _ hys, h4]

/-! ### Search-state rank, production and exhaustion -/

theorem produced_advanced (d : DescriptorScriptIterator) (h : d.inGrid) :
    d.advanced.produced = d.produced + 1 := by
  rw [DescriptorScriptIterator.produced, DescriptorScriptIterator.produced,
    DescriptorScriptIterator.advanced]
  dsimp only
  rw [← cellPos_advance d.max_index d.max_account (d.index, d.account) h.1 h.2]

theorem produced_lt_of_inGrid (d : DescriptorScriptIterator) (h : d.inGrid) :
    d.produced < (sortedCells d.max_index d.max_account).length :=
  cellPos_lt_length_of_mem _ _ ((mem_sortedCells _ _ _).mpr ⟨h.1, h.2⟩)

theorem produced_eq_length_of_exhausted (d : DescriptorScriptIterator) (h : ¬ d.inGrid) :
    d.produced = (sortedCells d.max_index d.max_account).length := by
  apply cellPos_eq_length_of_not_mem
  intro hm
  exact h ((mem_sortedCells _ _ _).mp hm)

theorem remaining_pos (d : DescriptorScriptIterator) (h : d.inGrid) : 1 ≤ d.remaining := by
  have := produced_lt_of_inGrid d h
  rw [DescriptorScriptIterator.remaining]
  omega

theorem remaining_advanced (d : DescriptorScriptIterator) (h : d.inGrid) :
    d.remaining = d.advanced.remaining + 1 := by
  have h1 := produced_advanced d h
  have h2 := produced_lt_of_inGrid d h
  have h3 : d.advanced.max_index = d.max_index ∧ d.advanced.max_account = d.max_account :=
    ⟨rfl, rfl⟩
  rw [DescriptorScriptIterator.remaining, DescriptorScriptIterator.remaining, h3.1, h3.2, h1]
  omega

theorem remaining_eq_zero_of_exhausted (d : DescriptorScriptIterator) (h : ¬ d.inGrid) :
    d.remaining = 0 := by
  rw [DescriptorScriptIterator.remaining, produced_eq_length_of_exhausted d h]
  omega

theorem exhausted_of_remaining_eq_zero (d : DescriptorScriptIterator) (h : d.remaining = 0) :
    ¬ d.inGrid := by
  intro hg
  have h1 := produced_lt_of_inGrid d hg
  rw [DescriptorScriptIterator.remaining] at h
  omega

theorem sortedCells_cons (mi ma : ℕ) :
    ∃ t, sortedCells mi ma = (0, 0) :: t := by
  have h := head?_sortedCells mi ma
  cases hs : sortedCells mi ma with
  | nil => rw [hs] at h; simp at h
  | cons x t =>
    rw [hs] at h
    simp only [List.head?_cons, Option.some_inj] at h
    exact ⟨t, by rw [h]⟩

theorem produced_start (d : DescriptorScriptIterator) (h0 : d.index = 0) (h1 : d.account = 0) :
    d.produced = 0 := by
  obtain ⟨t, ht⟩ := sortedCells_cons d.max_index d.max_account
  rw [DescriptorScriptIterator.produced, h0, h1, ht, cellPos_cons_self]

theorem remaining_start (d : DescriptorScriptIterator) (h0 : d.index = 0) (h1 : d.account = 0) :
    d.remaining = (d.max_index + 1) * (d.max_account + 1) := by
  rw [DescriptorScriptIterator.remaining, produced_start d h0 h1, length_sortedCells]
  omega

/-! ### One `next_script` call of a single search -/

theorem next_script_exhausted (mk : List Int → List ℕ) (build : ScriptType → List ℕ → List ℕ)
    (d : DescriptorScriptIterator) (h : ¬ d.inGrid) :
    d.next_script mk build = (.ok none, d) := by
  rw [DescriptorScriptIterator.next_script, if_pos]
  rw [DescriptorScriptIterator.inGrid] at h
  omega

theorem next_script_produce (mk : List Int → List ℕ) (build : ScriptType → List ℕ → List ℕ)
    (d : DescriptorScriptIterator) (hg : d.inGrid)
    (hres : ((d.path.with_account (d.account : Int)).to_list (some (d.index : Int)) none).isSome
      = true) :
    d.next_script mk build =
      (cellResult mk build d.path d.script_type (d.index, d.account), d.advanced) := by
  obtain ⟨idxs, hidxs⟩ := Option.isSome_iff_exists.mp hres
  rw [DescriptorScriptIterator.next_script,
    if_neg (by rw [DescriptorScriptIterator.inGrid] at hg; omega)]
  simp only [hidxs]
  rw [cellResult]
  dsimp only
  rw [hidxs]
  rfl

/-! ### Full runs of a single search -/

theorem run_exhausted (mk : List Int → List ℕ) (build : ScriptType → List ℕ → List ℕ)
    (d : DescriptorScriptIterator) (h : ¬ d.inGrid) :
    ∀ m, (d.run mk build m).1 = List.replicate m (Except.ok none) ∧
      d.runCells mk build m = [] := by
  intro m
  induction m with
  | zero => exact ⟨rfl, rfl⟩
  | succ k ih =>
    constructor
    · simp only [DescriptorScriptIterator.run, next_script_exhausted mk build d h]
      rw [ih.1]
      rfl
    · simp only [DescriptorScriptIterator.runCells, next_script_exhausted mk build d h]
      exact ih.2

theorem run_spine (mk : List Int → List ℕ) (build : ScriptType → List ℕ → List ℕ)
    (p : Path) (st : ScriptType) (mi ma : ℕ) :
    ∀ (l : List (ℕ × ℕ)) (d : DescriptorScriptIterator),
      d.path = p → d.script_type = st → d.max_index = mi → d.max_account = ma →
      (∀ c ∈ l, c.1 ≤ mi ∧ c.2 ≤ ma) →
      List.Chain' (advStep mi ma) l →
      (l = [] → ¬ d.inGrid) →
      (∀ c0, l.head? = some c0 → d.index = c0.1 ∧ d.account = c0.2) →
      (∀ cl, l.getLast? = some cl →
        mi < (advanceCell mi ma cl.1 cl.2).1 ∨ ma < (advanceCell mi ma cl.1 cl.2).2) →
      (∀ c ∈ l, ((p.with_account (c.2 : Int)).to_list (some (c.1 : Int)) none).isSome = true) →
      ∀ m, (d.run mk build (l.length + m)).1 =
          l.map (cellResult mk build p st) ++ List.replicate m (Except.ok none) ∧
        d.runCells mk build (l.length + m) = l := by
  intro l
  induction l with
  | nil =>
    intro d _ _ _ _ _ _ hnil _ _ _ m
    have h := run_exhausted mk build d (hnil rfl) m
    simpa using h
  | cons c rest ih =>
    intro d hp hst hmi hma hbounds hchain _ hhead hlast hres m
    have hc := hhead c rfl
    have hcb := hbounds c (by simp)
    have hg : d.inGrid := by
      rw [DescriptorScriptIterator.inGrid, hc.1, hc.2, hmi, hma]
      exact ⟨hcb.1, hcb.2⟩
    have hresd : ((d.path.with_account (d.account : Int)).to_list
        (some (d.index : Int)) none).isSome = true := by
      rw [hp, hc.1, hc.2]
      exact hres c (by simp)
    have hstep := next_script_produce mk build d hg hresd
    have hcur : d.advanced.index = (advanceCell mi ma c.1 c.2).1 ∧
        d.advanced.account = (advanceCell mi ma c.1 c.2).2 := by
      rw [DescriptorScriptIterator.advanced]
      dsimp only
      rw [hc.1, hc.2, hmi, hma]
      exact ⟨rfl, rfl⟩
    have hih := ih d.advanced hp hst hmi hma
      (fun x hx => hbounds x (List.mem_cons_of_mem _ hx))
      ((List.chain'_cons'.mp hchain).2)
      (by
        intro he
        have hl : (c :: rest).getLast? = some c := by rw [he]; rfl
        have h2 := hlast c hl
        have hm1 : d.advanced.max_index = d.max_index := rfl
        have hm2 : d.advanced.max_account = d.max_account := rfl
        rw [DescriptorScriptIterator.inGrid, hcur.1, hcur.2, hm1, hm2, hmi, hma]
        omega)
      (by
        intro c0 hc0
        have h2 : advStep mi ma c c0 :=
          (List.chain'_cons'.mp hchain).1 c0 hc0
        rw [advStep] at h2
        rw [hcur.1, hcur.2, h2]
        exact ⟨rfl, rfl⟩)
      (by
        intro cl hcl
        apply hlast
        cases rest with
        | nil => simp at hcl
        | cons r0 r1 => rw [List.getLast?_cons_cons]; exact hcl)
      (fun x hx => hres x (List.mem_cons_of_mem _ hx))
    have hlen : (c :: rest).length + m = (rest.length + m) + 1 := by
      simp
      omega
    rw [hlen]
    constructor
    · simp only [DescriptorScriptIterator.run, hstep]
      rw [(hih m).1, hp, hst, hc.1, hc.2, Prod.mk.eta]
      rfl
    · simp only [DescriptorScriptIterator.runCells, hstep, cellResult]
      rw [(hih m).2, hc.1, hc.2, Prod.mk.eta]

theorem resolvesOn_spec (p : Path) (mi ma : ℕ) (h : resolvesOn p mi ma = true) :
    ∀ i, i ≤ mi → ∀ a, a ≤ ma →
      ((p.with_account (a : Int)).to_list (some (i : Int)) none).isSome = true := by
  rw [resolvesOn, List.all_eq_true] at h
  intro i hi a ha
  have h1 := h i (List.mem_range.mpr (by omega))
  rw [List.all_eq_true] at h1
  exact h1 a (List.mem_range.mpr (by omega))

theorem sortedCells_ne_nil (mi ma : ℕ) : sortedCells mi ma ≠ [] := by
  intro h
  have h2 := length_sortedCells mi ma
  rw [h] at h2
  simp only [List.length_nil] at h2
  have h3 : 0 < (mi + 1) * (ma + 1) := Nat.mul_pos (by omega) (by omega)
  omega

theorem run_sortedCells (mk : List Int → List ℕ) (build : ScriptType → List ℕ → List ℕ)
    (d : DescriptorScriptIterator) (h0 : d.index = 0) (h1 : d.account = 0)
    (hres : resolvesOn d.path d.max_index d.max_account = true) (m : ℕ) :
    (d.run mk build ((d.max_index + 1) * (d.max_account + 1) + m)).1 =
        (sortedCells d.max_index d.max_account).map
          (cellResult mk build d.path d.script_type)
          ++ List.replicate m (Except.ok none) ∧
      d.runCells mk build ((d.max_index + 1) * (d.max_account + 1) + m) =
        sortedCells d.max_index d.max_account := by
  have hlen := length_sortedCells d.max_index d.max_account
  have hmain := run_spine mk build d.path d.script_type d.max_index d.max_account
    (sortedCells d.max_index d.max_account) d rfl rfl rfl rfl
    (fun c hc => (mem_sortedCells _ _ c).mp hc)
    (chain'_sortedCells _ _)
    (fun he => absurd he (sortedCells_ne_nil _ _))
    (by
      intro c0 hc0
      rw [head?_sortedCells] at hc0
      have : c0 = (0, 0) := by simpa using hc0.symm
      rw [this, h0, h1]
      exact ⟨rfl, rfl⟩)
    (by
      intro cl hcl
      rw [getLast?_sortedCells] at hcl
      have hce : cl = (d.max_index, d.max_account) := by simpa using hcl.symm
      rw [hce]
      rw [advanceCell_border _ _ _ _ (Or.inr rfl)]
      dsimp only
      right
      omega)
    (by
      intro c hc
      have hb := (mem_sortedCells _ _ c).mp hc
      exact resolvesOn_spec d.path _ _ hres c.1 hb.1 c.2 hb.2)
    m
  rw [hlen] at hmain
  exact hmain

theorem has_variable_account_iff (p : Path) :
    p.has_variable_account = true ↔ 'a' ∈ p.path := by
  rw [Path.has_variable_account]
  exact List.elem_iff

theorem has_variable_index_iff (p : Path) :
    p.has_variable_index = true ↔ 'i' ∈ p.path := by
  rw [Path.has_variable_index]
  exact List.elem_iff

theorem mem_intToChars (v : Int) (c : Char) (hc : c ∈ intToChars v) :
    isDigitCh c = true ∨ c = Char.ofNat 45 := by
  rw [intToChars] at hc
  by_cases hv : v < 0
  · rw [if_pos hv] at hc
    rcases List.mem_cons.mp hc with h | h
    · exact Or.inr h
    · exact Or.inl (mem_natToChars_digit _ c h)
  · rw [if_neg hv] at hc
    exact Or.inl (mem_natToChars_digit _ c hc)

theorem mem_replaceChar_of_mem {x c : Char} {l : List Char} (rep : List Char)
    (hx : x ∈ l) (hne : x ≠ c) : x ∈ replaceChar c rep l := by
  induction l with
  | nil => simp at hx
  | cons y ys ih =>
    rcases List.mem_cons.mp hx with h | h
    · subst h
      have hy : ¬ x = c := hne
      simp only [replaceChar, if_neg hy]
      simp
    · by_cases hy : y = c
      · simp only [replaceChar, if_pos hy, List.mem_append]
        exact Or.inr (ih h)
      · simp only [replaceChar, if_neg hy]
        exact List.mem_cons_of_mem _ (ih h)

theorem not_mem_replaceChar_self {c : Char} {rep l : List Char} (h : c ∉ rep) :
    c ∉ replaceChar c rep l := by
  intro hm
  rcases mem_replaceChar hm with ⟨_, hne⟩ | hm2
  · exact hne rfl
  · exact h hm2

theorem next_script_error (mk : List Int → List ℕ) (build : ScriptType → List ℕ → List ℕ)
    (d : DescriptorScriptIterator) (hg : d.inGrid)
    (hres : (d.path.with_account (d.account : Int)).to_list (some (d.index : Int)) none
      = none) :
    d.next_script mk build = (.error InvalidPathError.mk, d) := by
  rw [DescriptorScriptIterator.next_script,
    if_neg (by rw [DescriptorScriptIterator.inGrid] at hg; omega)]
  simp only [hres]

/-! ### Claims about a single descriptor search -/

/-- C1: for every `max_index ≥ 0` and `max_account ≥ 0`, successive
`DescriptorScriptIterator.next_script` calls visit the cells of the grid
`[0, max_index] × [0, max_account]` in anti-diagonal order — every produced
cell precedes, in `diagLT` order (smaller `index + account` first, account
ascending inside one diagonal, diagonals clipped to the rectangle), every
later one, and the produced cells are exactly the grid; in particular for
`max_index = 2, max_account = 1` the visit order is exactly
`(0,0), (1,0), (0,1), (2,0), (1,1), (2,1)`. -/
theorem c1_diagonal_traversal (mk : List Int → List ℕ)
    (build : ScriptType → List ℕ → List ℕ) (p : Path) (st : ScriptType) (mi ma m : ℕ)
    (hres : resolvesOn p mi ma = true) :
    (List.Pairwise diagLT
        (DescriptorScriptIterator.runCells mk build ((mi + 1) * (ma + 1) + m)
          ⟨p, st, 0, 0, mi, ma, (mi + 1) * (ma + 1)⟩) ∧
      (∀ i a : ℕ,
        (i, a) ∈ DescriptorScriptIterator.runCells mk build ((mi + 1) * (ma + 1) + m)
          ⟨p, st, 0, 0, mi, ma, (mi + 1) * (ma + 1)⟩ ↔ i ≤ mi ∧ a ≤ ma)) ∧
    DescriptorScriptIterator.runCells trivialKey trivialBuild 6 demoSearch =
      [(0, 0), (1, 0), (0, 1), (2, 0), (1, 1), (2, 1)] := by
  have hrun := (run_sortedCells mk build ⟨p, st, 0, 0, mi, ma, (mi + 1) * (ma + 1)⟩
    rfl rfl hres m).2
  refine ⟨⟨?_, ?_⟩, by decide⟩
  · rw [hrun]
    exact pairwise_sortedCells mi ma
  · intro i a
    rw [hrun, mem_sortedCells]

/-- Witness for C1 at the concrete 3 × 2 search `demoSearch`. -/
theorem c1_diagonal_traversal_witness :
    List.Pairwise diagLT (DescriptorScriptIterator.runCells trivialKey trivialBuild 8
      ⟨tpl (r"m/ah/i"), ScriptType.LEGACY, 0, 0, 2, 1, (2 + 1) * (1 + 1)⟩) :=
  ((c1_diagonal_traversal trivialKey trivialBuild (tpl (r"m/ah/i")) ScriptType.LEGACY
    2 1 2 (by decide)).1).1

/-- C3: for every template and bounds, `next_script` returns a non-null
result exactly `total_scripts = (max_index + 1) * (max_account + 1)` times —
the bounds clamped to 0 by the constructor when the corresponding placeholder
is absent — and null on every call thereafter; exhaustion is terminal. -/
theorem c3_total_count (mk : List Int → List ℕ) (build : ScriptType → List ℕ → List ℕ)
    (p : Path) (st : ScriptType) (mi ma m : ℕ)
    (hres : resolvesOn p (DescriptorScriptIterator.init p st mi ma).max_index
      (DescriptorScriptIterator.init p st mi ma).max_account = true) :
    ((DescriptorScriptIterator.init p st mi ma).run mk build
        ((DescriptorScriptIterator.init p st mi ma).total_scripts + m)).1.map resFlag =
      List.replicate (DescriptorScriptIterator.init p st mi ma).total_scripts true
        ++ List.replicate m false := by
  have htot : (DescriptorScriptIterator.init p st mi ma).total_scripts =
      ((DescriptorScriptIterator.init p st mi ma).max_index + 1) *
        ((DescriptorScriptIterator.init p st mi ma).max_account + 1) := rfl
  have hrun := (run_sortedCells mk build (DescriptorScriptIterator.init p st mi ma)
    rfl rfl hres m).1
  rw [htot, hrun, List.map_append, List.map_map, List.map_replicate]
  have h1 : resFlag ∘ cellResult mk build (DescriptorScriptIterator.init p st mi ma).path
      (DescriptorScriptIterator.init p st mi ma).script_type = fun _ => true :=
    funext (fun _ => rfl)
  rw [h1, List.map_const', length_sortedCells]
  rfl

/-- Witness for C3 at a concrete two-placeholder template with
`max_index = max_account = 1` and two extra calls. -/
theorem c3_total_count_witness :
    ((DescriptorScriptIterator.init (tpl (r"m/ah/i")) ScriptType.LEGACY 1 1).run
        trivialKey trivialBuild
        ((DescriptorScriptIterator.init (tpl (r"m/ah/i")) ScriptType.LEGACY 1 1).total_scripts
          + 2)).1.map resFlag =
      List.replicate 4 true ++ List.replicate 2 false :=
  c3_total_count trivialKey trivialBuild (tpl (r"m/ah/i")) ScriptType.LEGACY 1 1 2 (by decide)

/-- C6: `to_list` maps a hardened segment (decimal digits followed by `'`) to
`HARDENED_INDEX = 2^31` plus its literal value and a plain segment to its
literal value unchanged; in particular `m/44'/0'/a'/0/i` at
`index = 5, account = 2` resolves to `[2^31+44, 2^31+0, 2^31+2, 0, 5]`. -/
theorem c6_to_list_mapping :
    (∀ n : ℕ, partIndex (natToChars n ++ [apos]) = some (HARDENED_INDEX + (n : Int)) ∧
      partIndex (natToChars n) = some ((n : Int))) ∧
    (tpl (r"m/44h/0h/ah/0/i")).to_list (some 5) (some 2) =
      some [HARDENED_INDEX + 44, HARDENED_INDEX + 0, HARDENED_INDEX + 2, 0, 5] := by
  constructor
  · intro n
    constructor
    · rw [partIndex, if_pos (by rw [List.getLast?_concat]), List.dropLast_concat,
        pyInt_natToChars]
      rfl
    · obtain ⟨c, hgl, hcm⟩ := getLast_mem_self _ (natToChars_ne_nil n)
      have hca : ¬ (natToChars n).getLast? = some apos := by
        rw [hgl]
        intro he
        have hc : c = apos := by simpa using he
        have hd := mem_natToChars_digit n c hcm
        rw [hc] at hd
        exact Bool.noConfusion ((by decide : isDigitCh apos = false).symm.trans hd)
      rw [partIndex, if_neg hca, pyInt_natToChars]
  · decide

/-- C7: `to_list` fails (the `InvalidPathError` site) exactly when some
segment of the substituted pattern does not parse as an integer, as with an
unbound placeholder substituted by the text `None`. -/
theorem c7_to_list_failure :
    (∀ (p : Path) (index account : Option Int),
      p.to_list index account = none ↔
        ∃ part ∈ p.parts_of index account, partIndex part = none) ∧
    (tpl (r"m/44h/ah/i")).to_list none none = none := by
  constructor
  · intro p index account
    rw [Path.to_list]
    exact optMapM_eq_none_iff partIndex _
  · decide

/-- C8: binding a placeholder is non-mutating and value-producing — for a
path with a free account placeholder, `with_account` returns a different
`Path` value and the original still reports `has_variable_account`, and
symmetrically for `with_index`. -/
theorem c8_binding_non_mutating (t : Path) (v : Int) :
    (t.has_variable_account = true →
      t.with_account v ≠ t ∧ t.has_variable_account = true) ∧
    (t.has_variable_index = true →
      t.with_index v ≠ t ∧ t.has_variable_index = true) := by
  constructor
  · intro h
    refine ⟨?_, h⟩
    intro he
    have hmem : 'a' ∈ t.path := (has_variable_account_iff t).mp h
    have hrep : 'a' ∉ intToChars v := by
      intro hm
      rcases mem_intToChars v 'a' hm with hd | hd
      · exact Bool.noConfusion ((by decide : isDigitCh 'a' = false).symm.trans hd)
      · exact (by decide : ('a' : Char) ≠ Char.ofNat 45) hd
    have hnm := not_mem_replaceChar_self (l := t.path) hrep
    have hpaths : replaceChar 'a' (intToChars v) t.path = t.path := congrArg Path.path he
    rw [hpaths] at hnm
    exact hnm hmem
  · intro h
    refine ⟨?_, h⟩
    intro he
    have hmem : 'i' ∈ t.path := (has_variable_index_iff t).mp h
    have hrep : 'i' ∉ intToChars v := by
      intro hm
      rcases mem_intToChars v 'i' hm with hd | hd
      · exact Bool.noConfusion ((by decide : isDigitCh 'i' = false).symm.trans hd)
      · exact (by decide : ('i' : Char) ≠ Char.ofNat 45) hd
    have hnm := not_mem_replaceChar_self (l := t.path) hrep
    have hpaths : replaceChar 'i' (intToChars v) t.path = t.path := congrArg Path.path he
    rw [hpaths] at hnm
    exact hnm hmem

/-- Witness for C8 at the template `m/a'/i` bound to 3. -/
theorem c8_binding_non_mutating_witness :
    (tpl (r"m/ah/i")).with_account 3 ≠ tpl (r"m/ah/i") ∧
    (tpl (r"m/ah/i")).with_index 3 ≠ tpl (r"m/ah/i") :=
  ⟨((c8_binding_non_mutating (tpl (r"m/ah/i")) 3).1 (by decide)).1,
    ((c8_binding_non_mutating (tpl (r"m/ah/i")) 3).2 (by decide)).1⟩

/-- C10: a non-null `next_script` result carries the path with only the
account placeholder substituted — it equals `path.with_account account`, so
a free index placeholder survives in the returned path, and all cells with
the same account yield structurally equal paths. -/
theorem c10_result_path (mk : List Int → List ℕ) (build : ScriptType → List ℕ → List ℕ)
    (d : DescriptorScriptIterator) (sc : List ℕ) (pp : Path) (stt : ScriptType)
    (d2 : DescriptorScriptIterator)
    (h : d.next_script mk build = (.ok (some (sc, pp, stt)), d2)) :
    pp = d.path.with_account (d.account : Int) ∧
      (d.path.has_variable_index = true → pp.has_variable_index = true) := by
  by_cases hg : d.inGrid
  · cases hl : (d.path.with_account (d.account : Int)).to_list (some (d.index : Int)) none
      with
    | none =>
      rw [next_script_error mk build d hg hl] at h
      exact absurd (congrArg Prod.fst h) (by simp)
    | some idxs =>
      rw [next_script_produce mk build d hg (by rw [hl]; rfl)] at h
      have h1 := congrArg Prod.fst h
      rw [cellResult] at h1
      simp only [Except.ok.injEq, Option.some_inj, Prod.mk.injEq] at h1
      have hpp : pp = d.path.with_account (d.account : Int) := h1.2.1.symm
      refine ⟨hpp, ?_⟩
      intro hvar
      rw [hpp, Path.with_account, has_variable_index_iff]
      apply mem_replaceChar_of_mem
      · exact (has_variable_index_iff d.path).mp hvar
      · decide
  · rw [next_script_exhausted mk build d hg] at h
    exact absurd (congrArg Prod.fst h) (by simp)

/-- Witness for C10: the first call of the `m/a'/i` search over the 3 × 2
grid returns the path `m/0'/i`, which still has its index placeholder. -/
theorem c10_result_path_witness :
    tpl (r"m/0h/i") = demoSearch.path.with_account ((demoSearch.account : ℕ) : Int) ∧
      (demoSearch.path.has_variable_index = true →
        (tpl (r"m/0h/i")).has_variable_index = true) :=
  c10_result_path trivialKey trivialBuild demoSearch [] (tpl (r"m/0h/i"))
    ScriptType.LEGACY
    ⟨tpl (r"m/ah/i"), ScriptType.LEGACY, 1, 0, 2, 1, 6⟩ (by rfl)

/-! ### The scheduler: initial state -/

theorem mem_expandRegistry (reg : List (Path × List ScriptType)) (mi ma : ℕ)
    (d : DescriptorScriptIterator) :
    d ∈ expandRegistry reg mi ma →
      ∃ p tys ty, (p, tys) ∈ reg ∧ ty ∈ tys ∧
        d = DescriptorScriptIterator.init p ty mi ma := by
  induction reg with
  | nil => intro h; simp [expandRegistry] at h
  | cons pr rest ih =>
    intro h
    rw [expandRegistry] at h
    rcases List.mem_append.mp h with h | h
    · obtain ⟨ty, hty, he⟩ := List.mem_map.mp h
      exact ⟨pr.1, pr.2, ty, by simp, hty, he.symm⟩
    · obtain ⟨p, tys, ty, hm, hty, he⟩ := ih h
      exact ⟨p, tys, ty, List.mem_cons_of_mem _ hm, hty, he⟩

theorem init_index_zero (p : Path) (ty : ScriptType) (mi ma : ℕ) :
    (DescriptorScriptIterator.init p ty mi ma).index = 0 ∧
      (DescriptorScriptIterator.init p ty mi ma).account = 0 ∧
      (DescriptorScriptIterator.init p ty mi ma).path = p := ⟨rfl, rfl, rfl⟩

theorem init_inv (mk : List Int → List ℕ) (mi ma : ℕ) :
    (ScriptIterator.init mk mi ma).Inv := by
  refine ⟨?_, ⟨0, ?_⟩, ?_⟩
  · by_cases h : (ScriptIterator.init mk mi ma).descriptors = []
    · exact Or.inl h
    · have hz : (ScriptIterator.init mk mi ma).index = 0 := rfl
      refine Or.inr ⟨by rw [hz], ?_⟩
      rw [hz]
      have := List.length_pos.mpr h
      omega
  · intro p hp
    have hmem := mem_getIdx (ScriptIterator.init mk mi ma).descriptors dfltDSI p hp
    obtain ⟨q, tys, ty, _, _, he⟩ := mem_expandRegistry Indy.descriptors mi ma _ hmem
    have h1 : (getIdx (ScriptIterator.init mk mi ma).descriptors p dfltDSI).produced = 0 :=
      produced_start _ (by rw [he]; rfl) (by rw [he]; rfl)
    rw [h1]
    have h2 : ¬ ((p : Int) < (ScriptIterator.init mk mi ma).index) := by
      have : (ScriptIterator.init mk mi ma).index = 0 := rfl
      rw [this]
      omega
    rw [if_neg h2]
  · intro d hd
    obtain ⟨q, tys, ty, hq, _, he⟩ := mem_expandRegistry Indy.descriptors mi ma d hd
    have : d.path = q := by rw [he]; rfl
    rw [this]
    exact registry_pathOK (q, tys) hq

theorem pending_init (mk : List Int → List ℕ) (mi ma : ℕ) :
    (ScriptIterator.init mk mi ma).pending = (ScriptIterator.init mk mi ma).total_scripts := by
  have h1 : (ScriptIterator.init mk mi ma).total_scripts =
      ((ScriptIterator.init mk mi ma).descriptors.map (fun d => d.total_scripts)).sum := rfl
  rw [ScriptIterator.pending, h1]
  apply sum_map_congr
  intro d hd
  obtain ⟨q, tys, ty, _, _, he⟩ := mem_expandRegistry Indy.descriptors mi ma d hd
  have h2 := remaining_start d (by rw [he]; rfl) (by rw [he]; rfl)
  have h3 : d.total_scripts = (d.max_index + 1) * (d.max_account + 1) := by rw [he]; rfl
  rw [h2, h3]

/-! ### The scheduler: a single pass of the round-robin loop -/

theorem cursor_facts (s : ScriptIterator) (hne : s.descriptors ≠ []) (hc : s.CursorOK) :
    s.index.toNat < s.descriptors.length ∧ ((s.index.toNat : ℕ) : Int) = s.index := by
  rcases hc with h | ⟨h0, hlt⟩
  · exact absurd h hne
  · omega

theorem step_produce (build : ScriptType → List ℕ → List ℕ) (s : ScriptIterator)
    (hne : s.descriptors ≠ []) (hInv : s.Inv)
    (hg : (getIdx s.descriptors s.index.toNat dfltDSI).inGrid) :
    (∃ res, (s.next_descriptor_script build).1 = .ok (some res)) ∧
      (s.next_descriptor_script build).2.Inv ∧
      (s.next_descriptor_script build).2.pending + 1 = s.pending ∧
      (s.next_descriptor_script build).2.descriptors.length = s.descriptors.length ∧
      (s.next_descriptor_script build).2.total_scripts = s.total_scripts ∧
      (s.next_descriptor_script build).2.master_key = s.master_key := by
  obtain ⟨hcur, hcur2⟩ := cursor_facts s hne hInv.1
  set d := getIdx s.descriptors s.index.toNat dfltDSI with hd
  have hOK : pathOK d.path := hInv.2.2 d (mem_getIdx _ _ _ hcur)
  have hres : ((d.path.with_account (d.account : Int)).to_list
      (some (d.index : Int)) none).isSome = true :=
    pathOK_resolves d.path hOK d.index d.account
  have hnext := next_script_produce s.master_key build d hg hres
  have hstep : s.next_descriptor_script build =
      (cellResult s.master_key build d.path d.script_type (d.index, d.account),
        ⟨s.master_key,
          if (s.descriptors.length : Int) ≤ s.index + 1 then 0 else s.index + 1,
          setAt s.descriptors s.index.toNat d.advanced, s.total_scripts⟩) := by
    rw [ScriptIterator.next_descriptor_script, ← hd, hnext]
    rw [cellResult]
    simp only [Option.isNone_some, Bool.false_eq_true, if_false, length_setAt]
  rw [hstep]
  obtain ⟨K, hK⟩ := hInv.2.1
  have hKd : d.produced = K := by
    have h1 := hK s.index.toNat hcur
    rw [← hd, if_neg (by omega)] at h1
    omega
  refine ⟨⟨_, rfl⟩, ⟨?_, ?_, ?_⟩, ?_, ?_, rfl, rfl⟩
  · -- cursor invariant
    right
    dsimp only [ScriptIterator.CursorOK]
    rw [length_setAt]
    by_cases hw : (s.descriptors.length : Int) ≤ s.index + 1
    · rw [if_pos hw]
      have := List.length_pos.mpr hne
      omega
    · rw [if_neg hw]
      omega
  · -- fairness
    by_cases hw : (s.descriptors.length : Int) ≤ s.index + 1
    · refine ⟨K + 1, ?_⟩
      intro p hp
      dsimp only at hp ⊢
      rw [length_setAt] at hp
      rw [if_pos hw, if_neg (by omega)]
      by_cases hpc : p = s.index.toNat
      · rw [hpc, getIdx_setAt_self _ _ _ _ hcur, produced_advanced d hg, hKd]
      · rw [getIdx_setAt_other _ _ _ _ _ hpc, hK p hp, if_pos (by omega)]
    · refine ⟨K, ?_⟩
      intro p hp
      dsimp only at hp ⊢
      rw [length_setAt] at hp
      rw [if_neg hw]
      by_cases hpc : p = s.index.toNat
      · rw [hpc, getIdx_setAt_self _ _ _ _ hcur, produced_advanced d hg, hKd,
          if_pos (by omega)]
      · rw [getIdx_setAt_other _ _ _ _ _ hpc, hK p hp]
        by_cases hlt : (p : Int) < s.index
        · rw [if_pos hlt, if_pos (by omega)]
        · rw [if_neg hlt, if_neg (by omega)]
  · -- resolvable paths
    intro d2 hd2
    dsimp only at hd2
    rcases mem_setAt _ _ _ _ hd2 with h | h
    · have : d2.path = d.path := by rw [h]; rfl
      rw [this]
      exact hOK
    · exact hInv.2.2 d2 h
  · -- pending decreases by one
    rw [ScriptIterator.pending, ScriptIterator.pending]
    dsimp only
    have h1 := sum_map_setAt s.descriptors (fun d2 => d2.remaining) s.index.toNat
      d.advanced dfltDSI hcur
    rw [← hd] at h1
    dsimp only at h1
    have h2 := remaining_advanced d hg
    omega
  · dsimp only
    rw [length_setAt]

theorem step_remove (build : ScriptType → List ℕ → List ℕ) (s : ScriptIterator)
    (hne : s.descriptors ≠ []) (hInv : s.Inv)
    (hg : ¬ (getIdx s.descriptors s.index.toNat dfltDSI).inGrid) :
    (s.next_descriptor_script build).1 = .ok none ∧
      (s.next_descriptor_script build).2.Inv ∧
      (s.next_descriptor_script build).2.pending = s.pending ∧
      (s.next_descriptor_script build).2.descriptors.length + 1 = s.descriptors.length ∧
      (s.next_descriptor_script build).2.total_scripts = s.total_scripts ∧
      (s.next_descriptor_script build).2.master_key = s.master_key := by
  obtain ⟨hcur, hcur2⟩ := cursor_facts s hne hInv.1
  set d := getIdx s.descriptors s.index.toNat dfltDSI with hd
  have hnext := next_script_exhausted s.master_key build d hg
  have hlen := length_delAt s.descriptors s.index.toNat hcur
  have hstep : s.next_descriptor_script build =
      (.ok none,
        ⟨s.master_key,
          if ((delAt s.descriptors s.index.toNat).length : Int) ≤ s.index - 1 + 1 then 0
            else s.index - 1 + 1,
          delAt s.descriptors s.index.toNat, s.total_scripts⟩) := by
    rw [ScriptIterator.next_descriptor_script, ← hd, hnext]
    simp only [Option.isNone_none, if_true]
  rw [hstep]
  obtain ⟨K, hK⟩ := hInv.2.1
  have hKd : d.produced = K := by
    have h1 := hK s.index.toNat hcur
    rw [← hd, if_neg (by omega)] at h1
    omega
  have hidx : s.index - 1 + 1 = s.index := by omega
  refine ⟨rfl, ⟨?_, ?_, ?_⟩, ?_, ?_, rfl, rfl⟩
  · -- cursor invariant
    by_cases hemp : delAt s.descriptors s.index.toNat = []
    · exact Or.inl hemp
    · right
      dsimp only
      have hlp := List.length_pos.mpr hemp
      by_cases hw : ((delAt s.descriptors s.index.toNat).length : Int) ≤ s.index - 1 + 1
      · rw [if_pos hw]
        omega
      · rw [if_neg hw]
        rw [hidx]
        omega
  · -- fairness
    by_cases hw : ((delAt s.descriptors s.index.toNat).length : Int) ≤ s.index - 1 + 1
    · -- the cursor was on the last slot (or the list emptied): new cycle
      refine ⟨K + 1, ?_⟩
      intro p hp
      dsimp only at hp ⊢
      rw [if_pos hw, if_neg (by omega)]
      rw [hidx] at hw
      have hplt : p < s.index.toNat := by omega
      rw [getIdx_delAt_lt _ _ _ _ hplt, hK p (by omega), if_pos (by omega)]
    · refine ⟨K, ?_⟩
      intro p hp
      dsimp only at hp ⊢
      rw [if_neg hw, hidx]
      rw [hidx] at hw
      by_cases hplt : p < s.index.toNat
      · rw [getIdx_delAt_lt _ _ _ _ hplt, hK p (by omega)]
      · rw [getIdx_delAt_ge _ _ _ _ (by omega), hK (p + 1) (by omega),
          if_neg (by push_cast; omega), if_neg (by omega)]
  · -- resolvable paths
    intro d2 hd2
    dsimp only at hd2
    exact hInv.2.2 d2 (mem_delAt _ _ _ hd2)
  · -- pending unchanged
    rw [ScriptIterator.pending, ScriptIterator.pending]
    dsimp only
    have h1 := sum_map_delAt s.descriptors (fun d2 => d2.remaining) s.index.toNat dfltDSI hcur
    rw [← hd] at h1
    dsimp only at h1
    have h2 := remaining_eq_zero_of_exhausted d hg
    omega
  · dsimp only
    omega

/-! ### The scheduler: the full `next_script` loop -/

theorem pending_pos_of_inGrid (s : ScriptIterator) (hne : s.descriptors ≠ [])
    (hc : s.CursorOK) (hg : (getIdx s.descriptors s.index.toNat dfltDSI).inGrid) :
    0 < s.pending := by
  obtain ⟨hcur, _⟩ := cursor_facts s hne hc
  have hmem := mem_getIdx s.descriptors dfltDSI s.index.toNat hcur
  have h1 := remaining_pos _ hg
  have h2 : (getIdx s.descriptors s.index.toNat dfltDSI).remaining ∈
      s.descriptors.map (fun d2 => d2.remaining) :=
    List.mem_map_of_mem _ hmem
  have h3 := List.single_le_sum (fun (x : ℕ) _ => Nat.zero_le x) _ h2
  rw [ScriptIterator.pending]
  omega

theorem nextAux_spec (build : ScriptType → List ℕ → List ℕ) :
    ∀ fuel (s : ScriptIterator), s.descriptors.length < fuel → s.Inv →
      (0 < s.pending → ∃ res s2, ScriptIterator.nextAux build fuel s = (.ok (some res), s2) ∧
        s2.Inv ∧ s2.pending + 1 = s.pending ∧ s2.total_scripts = s.total_scripts ∧
        s2.master_key = s.master_key) ∧
      (s.pending = 0 → ∃ s2, ScriptIterator.nextAux build fuel s = (.ok none, s2) ∧
        s2.descriptors = [] ∧ s2.Inv ∧ s2.total_scripts = s.total_scripts ∧
        s2.master_key = s.master_key) := by
  intro fuel
  induction fuel with
  | zero => intro s h; omega
  | succ f ih =>
    intro s hlen hInv
    by_cases hemp : s.descriptors.length = 0
    · have hnil : s.descriptors = [] := List.length_eq_zero.mp hemp
      constructor
      · intro hp
        rw [ScriptIterator.pending, hnil] at hp
        simp at hp
      · intro _
        refine ⟨s, ?_, hnil, hInv, rfl, rfl⟩
        simp only [ScriptIterator.nextAux, if_pos hemp]
    · have hne : s.descriptors ≠ [] := by
        intro h
        rw [h] at hemp
        simp at hemp
      by_cases hg : (getIdx s.descriptors s.index.toNat dfltDSI).inGrid
      · obtain ⟨⟨res, hres1⟩, hinv2, hpend, _, htot2, hmk2⟩ := step_produce build s hne hInv hg
        set s2 := (s.next_descriptor_script build).2 with hs2
        have hfull : s.next_descriptor_script build = (.ok (some res), s2) := by
          rw [hs2, ← hres1]
        have hpos := pending_pos_of_inGrid s hne hInv.1 hg
        constructor
        · intro _
          refine ⟨res, s2, ?_, hinv2, hpend, htot2, hmk2⟩
          simp only [ScriptIterator.nextAux, hfull, if_neg hemp]
        · intro hz
          omega
      · obtain ⟨hres1, hinv2, hpend, hlen2, htot2, hmk2⟩ := step_remove build s hne hInv hg
        set s2 := (s.next_descriptor_script build).2 with hs2
        have hfull : s.next_descriptor_script build = (.ok none, s2) := by
          rw [hs2, ← hres1]
        have hfuel2 : s2.descriptors.length < f := by omega
        have hrec := ih s2 hfuel2 hinv2
        constructor
        · intro hp
          obtain ⟨res, s3, h3, hi3, hp3, ht3, hm3⟩ := hrec.1 (by omega)
          refine ⟨res, s3, ?_, hi3, by omega, by rw [ht3, htot2], by rw [hm3, hmk2]⟩
          simp only [ScriptIterator.nextAux, hfull, if_neg hemp]
          exact h3
        · intro hz
          obtain ⟨s3, h3, hd3, hi3, ht3, hm3⟩ := hrec.2 (by omega)
          refine ⟨s3, ?_, hd3, hi3, by rw [ht3, htot2], by rw [hm3, hmk2]⟩
          simp only [ScriptIterator.nextAux, hfull, if_neg hemp]
          exact h3

theorem next_script_spec (build : ScriptType → List ℕ → List ℕ) (s : ScriptIterator)
    (hInv : s.Inv) :
    (0 < s.pending → ∃ res s2, s.next_script build = (.ok (some res), s2) ∧
      s2.Inv ∧ s2.pending + 1 = s.pending ∧ s2.total_scripts = s.total_scripts ∧
      s2.master_key = s.master_key) ∧
    (s.pending = 0 → ∃ s2, s.next_script build = (.ok none, s2) ∧
      s2.descriptors = [] ∧ s2.Inv ∧ s2.total_scripts = s.total_scripts ∧
      s2.master_key = s.master_key) :=
  nextAux_spec build (s.descriptors.length + 1) s (by omega) hInv

theorem run_inv (build : ScriptType → List ℕ → List ℕ) :
    ∀ n (s : ScriptIterator), s.Inv → ((s.run build n).2).Inv := by
  intro n
  induction n with
  | zero => intro s h; exact h
  | succ k ih =>
    intro s hInv
    have hnext : ((s.next_script build).2).Inv := by
      by_cases hp : 0 < s.pending
      · obtain ⟨res, s2, hstep, hinv2, _, _, _⟩ := (next_script_spec build s hInv).1 hp
        rw [hstep]
        exact hinv2
      · obtain ⟨s2, hstep, _, hinv2, _, _⟩ := (next_script_spec build s hInv).2 (by omega)
        rw [hstep]
        exact hinv2
    simp only [ScriptIterator.run]
    exact ih _ hnext

theorem run_zero_pending (build : ScriptType → List ℕ → List ℕ) :
    ∀ m (s : ScriptIterator), s.Inv → s.pending = 0 →
      ((s.run build m).1).map resFlag = List.replicate m false ∧
        (1 ≤ m → ((s.run build m).2).descriptors = []) := by
  intro m
  induction m with
  | zero => intro s _ _; exact ⟨rfl, by omega⟩
  | succ k ih =>
    intro s hInv hz
    obtain ⟨s2, hstep, hd2, hinv2, _, _⟩ := (next_script_spec build s hInv).2 hz
    have hz2 : s2.pending = 0 := by
      rw [ScriptIterator.pending, hd2]
      rfl
    have hrec := ih s2 hinv2 hz2
    constructor
    · simp only [ScriptIterator.run, hstep, List.map_cons]
      rw [hrec.1]
      rfl
    · intro _
      simp only [ScriptIterator.run, hstep]
      cases k with
      | zero => exact hd2
      | succ k2 =>
        have h2 : ((s2.run build (k2 + 1)).2).descriptors = [] := hrec.2 (by omega)
        exact h2

theorem run_flags_state (build : ScriptType → List ℕ → List ℕ) :
    ∀ n (s : ScriptIterator), s.Inv → s.pending = n → ∀ m,
      ((s.run build (n + m)).1).map resFlag =
        List.replicate n true ++ List.replicate m false ∧
      (1 ≤ m → ((s.run build (n + m)).2).descriptors = []) := by
  intro n
  induction n with
  | zero =>
    intro s hInv hz m
    have h := run_zero_pending build m s hInv hz
    constructor
    · rw [Nat.zero_add]
      exact h.1
    · intro hm
      rw [Nat.zero_add]
      exact h.2 hm
  | succ k ih =>
    intro s hInv hp m
    obtain ⟨res, s2, hstep, hinv2, hpend, _, _⟩ :=
      (next_script_spec build s hInv).1 (by omega)
    have hlen : k + 1 + m = (k + m) + 1 := by omega
    rw [hlen]
    have hrec := ih s2 hinv2 (by omega) m
    constructor
    · simp only [ScriptIterator.run, hstep, List.map_cons]
      rw [hrec.1]
      rfl
    · intro hm
      simp only [ScriptIterator.run, hstep]
      exact hrec.2 hm

/-! ### Claims about the scheduler -/

/-- C4: repeated `ScriptIterator.next_script` calls return a non-null result
exactly `total_scripts` times — the precomputed sum of `total_scripts` over
all descriptor searches created from the registry — and once the collection
has emptied every subsequent call returns null. -/
theorem c4_scheduler_count (mk : List Int → List ℕ) (build : ScriptType → List ℕ → List ℕ)
    (mi ma m : ℕ) :
    ((((ScriptIterator.init mk mi ma).run build
        ((ScriptIterator.init mk mi ma).total_scripts + m)).1).map resFlag =
      List.replicate (ScriptIterator.init mk mi ma).total_scripts true
        ++ List.replicate m false) ∧
    (((ScriptIterator.init mk mi ma).run build
        ((ScriptIterator.init mk mi ma).total_scripts + (m + 1))).2).descriptors = [] := by
  have hInv := init_inv mk mi ma
  have hpend := pending_init mk mi ma
  have h1 := run_flags_state build (ScriptIterator.init mk mi ma).total_scripts
    (ScriptIterator.init mk mi ma) hInv hpend m
  have h2 := run_flags_state build (ScriptIterator.init mk mi ma).total_scripts
    (ScriptIterator.init mk mi ma) hInv hpend (m + 1)
  exact ⟨h1.1, h2.2 (by omega)⟩

/-- C9: after construction and after every `next_script` call, the scheduler
collection is empty or the cursor is a valid index into it — the invariant
survives the in-place removal of exhausted searches. -/
theorem c9_cursor_invariant (mk : List Int → List ℕ) (build : ScriptType → List ℕ → List ℕ)
    (mi ma n : ℕ) :
    (((ScriptIterator.init mk mi ma).run build n).2).descriptors = [] ∨
      (0 ≤ (((ScriptIterator.init mk mi ma).run build n).2).index ∧
        (((ScriptIterator.init mk mi ma).run build n).2).index <
          ((((ScriptIterator.init mk mi ma).run build n).2).descriptors.length : Int)) :=
  (run_inv build n (ScriptIterator.init mk mi ma) (init_inv mk mi ma)).1

/-- C2, falsified as stated: with `max_index = 1, max_account = 0` all 27
searches stay active through 29 calls, search B (`m/44'/0'/a'/0/i`, legacy)
produces its 1st result at stream position 0, and search A
(`m/44'/0'/a'/1/i`, legacy) produces its 2nd (`k = 2`) result at stream
position 28 — which is 28 positions after B's 1st, exceeding the claimed
bound of `active − 1 = 26` positions. -/
theorem c2_position_bound_counterexample :
    ((((ScriptIterator.init trivialKey 1 0).run trivialBuild 29).1).filterMap resPair).get? 0
        = some (tpl (r"m/44h/0h/0h/0/i"), ScriptType.LEGACY) ∧
      ((((ScriptIterator.init trivialKey 1 0).run trivialBuild 29).1).filterMap resPair).get? 28
        = some (tpl (r"m/44h/0h/0h/1/i"), ScriptType.LEGACY) ∧
      (((((ScriptIterator.init trivialKey 1 0).run trivialBuild 29).1).filterMap resPair).take
          28).count (tpl (r"m/44h/0h/0h/1/i"), ScriptType.LEGACY) = 1 ∧
      (((ScriptIterator.init trivialKey 1 0).run trivialBuild 29).2).descriptors.length = 27 ∧
      ¬ 28 - 0 ≤ 27 - 1 := by
  refine ⟨by decide, by decide, by decide, by decide, by decide⟩

/-- C2, amended: while two searches both remain active in the scheduler,
their numbers of produced scripts never differ by more than one — each
active search contributes at most one candidate before ceding to the next,
so B's `(k−1)`-th result always precedes A's `k`-th, though not within any
fixed `active − 1` position bound. -/
theorem c2_round_robin_balance (mk : List Int → List ℕ) (build : ScriptType → List ℕ → List ℕ)
    (mi ma n : ℕ) (dA dB : DescriptorScriptIterator)
    (hA : dA ∈ (((ScriptIterator.init mk mi ma).run build n).2).descriptors)
    (hB : dB ∈ (((ScriptIterator.init mk mi ma).run build n).2).descriptors) :
    dA.produced ≤ dB.produced + 1 := by
  have hInv := run_inv build n (ScriptIterator.init mk mi ma) (init_inv mk mi ma)
  obtain ⟨K, hK⟩ := hInv.2.1
  obtain ⟨pA, hpA, heA⟩ := (mem_iff_getIdx _ dfltDSI dA).mp hA
  obtain ⟨pB, hpB, heB⟩ := (mem_iff_getIdx _ dfltDSI dB).mp hB
  have h1 := hK pA hpA
  have h2 := hK pB hpB
  rw [heA] at h1
  rw [heB] at h2
  have e1 : dA.produced ≤ K + 1 := by
    rw [h1]
    by_cases hc : ((pA : ℕ) : Int) <
        (((ScriptIterator.init mk mi ma).run build n).2).index
    · rw [if_pos hc]
    · rw [if_neg hc]
      omega
  have e2 : K ≤ dB.produced := by
    rw [h2]
    omega
  omega

/-- Witness for the amended C2 after one call with `max_index = max_account
= 0`: the just-served first search has produced 1 script, the untouched
second search 0, and `1 ≤ 0 + 1`. -/
theorem c2_round_robin_balance_witness :
    DescriptorScriptIterator.produced
        ⟨tpl (r"m/44h/0h/ah/0/i"), ScriptType.LEGACY, 0, 1, 0, 0, 1⟩ ≤
      DescriptorScriptIterator.produced
        ⟨tpl (r"m/44h/0h/ah/1/i"), ScriptType.LEGACY, 0, 0, 0, 0, 1⟩ + 1 :=
  c2_round_robin_balance trivialKey trivialBuild 0 0 1
    ⟨tpl (r"m/44h/0h/ah/0/i"), ScriptType.LEGACY, 0, 1, 0, 0, 1⟩
    ⟨tpl (r"m/44h/0h/ah/1/i"), ScriptType.LEGACY, 0, 0, 0, 0, 1⟩
    (by decide) (by decide)

/-- C5, falsified as stated: with `max_index = 1, max_account = 0` the
results at stream positions 0 and 27 carry the same
`(path, script_type)` pair — both cells `(0, 0)` and `(1, 0)` of the
`m/44'/0'/a'/0/i` legacy search return the path with only the account
bound — so the non-null results of a scheduler run are not duplicate-free. -/
theorem c5_duplicate_pair_counterexample :
    ((((ScriptIterator.init trivialKey 1 0).run trivialBuild 28).1).filterMap resPair).get? 0
        = some (tpl (r"m/44h/0h/0h/0/i"), ScriptType.LEGACY) ∧
      ((((ScriptIterator.init trivialKey 1 0).run trivialBuild 28).1).filterMap resPair).get? 27
        = some (tpl (r"m/44h/0h/0h/0/i"), ScriptType.LEGACY) ∧
      ¬ ((((ScriptIterator.init trivialKey 1 0).run trivialBuild 28).1).filterMap
          resPair).Nodup := by
  refine ⟨by decide, by decide, by decide⟩

/-- C5, amended: duplicates arise exactly because the returned path binds
only the account, so cells of one search sharing an account repeat the same
`(path, script_type)` pair once `max_index ≥ 1`; when `max_index = 0` each
search emits one result per account and the full run is duplicate-free, as
at `max_index = 0, max_account = 3`, whose complete run of the registry (45
results and one trailing null) repeats no `(path, script_type)` pair. -/
theorem c5_nodup_when_single_index :
    ((((ScriptIterator.init trivialKey 0 3).run trivialBuild 46).1).filterMap resPair).length
        = 45 ∧
      ((((ScriptIterator.init trivialKey 0 3).run trivialBuild 46).1).filterMap
        resPair).Nodup := by
  refine ⟨by decide, by decide⟩

end Indy
